import Mathlib

/-!
Verification of the traversal-and-reconciliation engine of the `stalk`
repository (a GitHub mutual-follow manager with DFS/BFS "ambitious" modes).

The JavaScript sources are shallowly embedded as Lean functions:

* `reconcile` models the set-difference computation in `run`
  (part_001 lines 453-463, part_002 lines 144-154).
* `followUser` / `unfollowUser` model the action executor
  (part_001 lines 242-279); the network call is an oracle
  `Acct → Except ApiErr Unit`, and the returned `netCalls` field records
  which requests were issued.
* `jsParseInt`, `parseMaxDepth`, `parseMaxFollows` model the CLI bound
  parsing (part_001 lines 50-86), including ECMAScript `parseInt(v, 10)`
  semantics (leading-whitespace skip, optional sign, maximal digit prefix).
* `getUserFollowersAux` / `getUserFollowers` model the paginated
  third-party fetcher (part_001 lines 196-240); `getAllFollowingAux`
  models the authenticated user's own-list fetcher (part_001 lines 138-165).
* `bfsFollowers` / `bfsLoop` / `bfsStalk` model the breadth-first engine
  (part_001 lines 307-425); `dfsStalk` / `dfsFollowers` model the
  depth-first engine (part_003 lines 232-307).

State that is only printed (console output, the `bfsStats`/`dfsStats`
counters, level bookkeeping) and the fixed `sleep` delays do not affect
control flow and are not part of the state; instead every model appends
the observable actions (dequeue, expansion, follow, enqueue) to an event
`trace`, which the temporal theorems inspect.
-/

namespace Stalk

/-- Account identifiers are platform usernames: opaque strings compared
verbatim. -/
abbrev Acct := String

/-- Errors an API request can fail with: the 404 (not found / private)
condition the fetcher distinguishes, or any other failure. -/
inductive ApiErr where
  | notFound
  | other (msg : String)
deriving DecidableEq

/-! ## Mutual-follow reconciliation (part_001 lines 453-463) -/

/-- The diff step of `run`:
`toFollow = followers.filter(u => !followingSet.has(u))` and
`toUnfollow = following.filter(u => !followersSet.has(u))`. -/
def reconcile (following followers : List Acct) : List Acct × List Acct :=
  (followers.filter fun u => decide (u ∉ following),
   following.filter fun u => decide (u ∉ followers))

/-! ## Relationship action executor (part_001 lines 242-279) -/

/-- Result of one `followUser` call: the boolean the caller sees, the
`followedInSession` set after the call, and the network requests issued. -/
structure FollowRes where
  ok : Bool
  session : List Acct
  netCalls : List Acct
deriving DecidableEq

/-- `followUser` (part_001 lines 242-260): in dry-run mode return `true`
without touching the network or the session set; in live mode issue the
call, record the account in `followedInSession` on success, and catch any
failure into a `false` result. -/
def followUser (isDryRun : Bool) (api : Acct → Except ApiErr Unit)
    (username : Acct) (followedInSession : List Acct) : FollowRes :=
  if isDryRun then
    ⟨true, followedInSession, []⟩
  else
    match api username with
    | .ok _ => ⟨true, username :: followedInSession, [username]⟩
    | .error _ => ⟨false, followedInSession, [username]⟩

/-- `unfollowUser` (part_001 lines 262-279): same shape as `followUser`
but never touches the session set.  Returns (success, requests issued). -/
def unfollowUser (isDryRun : Bool) (api : Acct → Except ApiErr Unit)
    (username : Acct) : Bool × List Acct :=
  if isDryRun then
    (true, [])
  else
    match api username with
    | .ok _ => (true, [username])
    | .error _ => (false, [username])

/-! ## CLI bound parsing (part_001 lines 50-86) -/

/-- The whitespace characters `parseInt` skips (the ones relevant to CLI
argument strings). -/
def jsWhitespace (c : Char) : Bool :=
  c == ' ' || c == '\t' || c == '\n' || c == '\r'

/-- Value of a list of decimal digit characters, most significant first. -/
def natOfDigits (ds : List Char) : Nat :=
  ds.foldl (fun n c => n * 10 + (c.toNat - '0'.toNat)) 0

/-- ECMAScript `parseInt(s, 10)`: skip leading whitespace, consume an
optional sign, then the maximal prefix of decimal digits; `none` (NaN)
when that prefix is empty. -/
def jsParseInt (s : String) : Option Int :=
  match s.toList.dropWhile jsWhitespace with
  | [] => none
  | c :: rest =>
    if c = '-' then
      let ds := rest.takeWhile Char.isDigit
      if ds.isEmpty then none else some (-(natOfDigits ds : Int))
    else if c = '+' then
      let ds := rest.takeWhile Char.isDigit
      if ds.isEmpty then none else some ((natOfDigits ds : Int))
    else
      let ds := (c :: rest).takeWhile Char.isDigit
      if ds.isEmpty then none else some ((natOfDigits ds : Int))

/-- `parseMaxDepth` (part_001 lines 50-67): find `--max-depth` in the
argument vector; when a following argument exists, `parseInt` it and
throw unless the result is a number `≥ 1`; otherwise the bound defaults
to `Infinity`, modelled as `none`. -/
def parseMaxDepth (args : List String) : Except String (Option Nat) :=
  match args.findIdx? (fun a => a == "--max-depth") with
  | some i =>
    match args[i + 1]? with
    | some v =>
      match jsParseInt v with
      | none => .error "Invalid --max-depth value. Must be a positive integer."
      | some n =>
        if n < 1 then .error "Invalid --max-depth value. Must be a positive integer."
        else .ok (some n.toNat)
    | none => .ok none
  | none => .ok none

/-- `parseMaxFollows` (part_001 lines 69-86): identical validation for
`--max-follows`. -/
def parseMaxFollows (args : List String) : Except String (Option Nat) :=
  match args.findIdx? (fun a => a == "--max-follows") with
  | some i =>
    match args[i + 1]? with
    | some v =>
      match jsParseInt v with
      | none => .error "Invalid --max-follows value. Must be a positive integer."
      | some n =>
        if n < 1 then .error "Invalid --max-follows value. Must be a positive integer."
        else .ok (some n.toNat)
    | none => .ok none
  | none => .ok none

/-- Follows the spec's words, for comparison with the code's validation:
the supplied CLI value is the decimal numeral of a positive integer. -/
def specPositiveInteger (s : String) : Bool :=
  !s.toList.isEmpty && s.toList.all Char.isDigit && decide (1 ≤ natOfDigits s.toList)

/-! ## Paginated fetchers (part_001 lines 138-240) -/

/-- `Number.MAX_SAFE_INTEGER`, the effective limit used when
`maxFollowsPerUser` is `Infinity` (part_001 line 198). -/
def maxSafeInteger : Nat := 2 ^ 53 - 1

/-- Loop body of `getUserFollowers` (part_001 lines 196-240).
`api perPage page` is the `listFollowersForUser` request.  Any request
failure (404 or otherwise) breaks out of the loop and the list collected
so far is returned; an empty page or a short page also ends the loop. -/
def getUserFollowersAux (api : Nat → Nat → Except ApiErr (List Acct))
    (effectiveLimit : Nat) (followers : List Acct) (fetched : Nat) (page : Nat) :
    List Acct :=
  if _hlt : fetched < effectiveLimit then
    let perPage := min 100 (effectiveLimit - fetched)
    match api perPage page with
    | .error _ => followers
    | .ok data =>
      if hzero : data.length = 0 then followers
      else
        if hshort : data.length < perPage then followers ++ data
        else getUserFollowersAux api effectiveLimit (followers ++ data)
          (fetched + data.length) (page + 1)
  else followers
termination_by effectiveLimit - fetched
decreasing_by omega

/-- `getUserFollowers` (part_001 lines 196-240): page through a
third-party user's followers starting at page 1 with nothing collected;
`none` models the `Infinity` limit. -/
def getUserFollowers (api : Nat → Nat → Except ApiErr (List Acct))
    (limit : Option Nat) : List Acct :=
  getUserFollowersAux api (limit.getD maxSafeInteger) [] 0 1

/-- `getAllFollowing` loop (part_001 lines 138-165): page through the
authenticated user's own following list; a request failure is rethrown
(`Except.error`), which aborts the run.  `api page` is the
`listFollowedByAuthenticatedUser` request at `per_page = 100`.  The outer
`Option` is the fuel needed to express the unbounded `while (true)`. -/
def getAllFollowingAux (api : Nat → Except ApiErr (List Acct)) :
    Nat → List Acct → Nat → Option (Except String (List Acct))
  | 0, _, _ => none
  | fuel + 1, following, page =>
    match api page with
    | .error _ => some (.error "Failed to fetch following list")
    | .ok data =>
      if data.length = 0 then some (.ok following)
      else getAllFollowingAux api fuel (following ++ data) (page + 1)

/-- Entry point of `getAllFollowing`: page 1, nothing collected. -/
def getAllFollowing (api : Nat → Except ApiErr (List Acct)) (fuel : Nat) :
    Option (Except String (List Acct)) :=
  getAllFollowingAux api fuel [] 1

/-! ## Traversal state and event trace -/

/-- A queue entry of the BFS (part_001 line 309):
`{ username, depth, parent }`. -/
structure BfsNode where
  username : Acct
  depth : Nat
  parent : Option Acct
deriving DecidableEq

/-- Observable actions of a traversal, in program order: a node is
dequeued (BFS `queue.shift()`), a node is expanded (marked processed and
its followers fetched), a follow succeeds, a follow fails, a node is
enqueued for the next level. -/
inductive Ev where
  | dequeue (username : Acct) (depth : Nat)
  | expand (username : Acct) (depth : Nat)
  | follow (username : Acct)
  | followFail (username : Acct)
  | enqueue (username : Acct) (depth : Nat)
deriving DecidableEq

/-- The mutable sets the engine threads through a traversal:
`processedUsers` (the Visited Set), `followedInSession` (the
Session-Followed Set), `currentFollowing` (the in-memory following set
handed to the traversal), plus the event trace. -/
structure TravSt where
  processedUsers : List Acct
  followedInSession : List Acct
  currentFollowing : List Acct
  trace : List Ev
deriving DecidableEq

/-- Usernames of the `expand` events of a trace, in order. -/
def expandedUsers (t : List Ev) : List Acct :=
  t.filterMap fun e =>
    match e with
    | .expand u _ => some u
    | _ => none

/-- Depths of the `dequeue` events of a trace, in order. -/
def dequeueDepths (t : List Ev) : List Nat :=
  t.filterMap fun e =>
    match e with
    | .dequeue _ d => some d
    | _ => none

/-! ## Breadth-first engine (part_001 lines 307-425) -/

/-- Configuration of one BFS run: the authenticated username, the dry-run
flag, the follow-call oracle, the per-node follower fetch (the result of
`getUserFollowers`, already capped at `maxFollowsPerUser`), and the depth
bound (`none` models `Infinity`). -/
structure BfsCfg where
  self : Acct
  isDryRun : Bool
  followApi : Acct → Except ApiErr Unit
  fetch : Acct → List Acct
  maxDepth : Option Nat

/-- The depth-pruning test of part_001 line 342:
`maxDepth !== Infinity && depth >= maxDepth`. -/
def depthPruned (maxDepth : Option Nat) (d : Nat) : Bool :=
  match maxDepth with
  | none => false
  | some m => m ≤ d

/-- The enqueue guard of part_001 line 404:
`maxDepth === Infinity || depth + 1 < maxDepth`. -/
def withinDepth (maxDepth : Option Nat) (d : Nat) : Bool :=
  match maxDepth with
  | none => true
  | some m => d < m

/-- The follower loop of `bfsStalk` (part_001 lines 368-419), processing
the fetched followers of the node being expanded at depth `d`: skip self,
skip accounts already followed (reconciled set or session set), skip
accounts already processed; otherwise follow, and on success add the
account to the in-memory following set and enqueue it for level `d + 1`
when that is within the depth bound. -/
def bfsFollowers (cfg : BfsCfg) (d : Nat) (par : Acct) :
    List Acct → TravSt → List BfsNode → TravSt × List BfsNode
  | [], st, queue => (st, queue)
  | follower :: rest, st, queue =>
    if follower = cfg.self then
      bfsFollowers cfg d par rest st queue
    else if follower ∈ st.currentFollowing ∨ follower ∈ st.followedInSession then
      bfsFollowers cfg d par rest st queue
    else if follower ∈ st.processedUsers then
      bfsFollowers cfg d par rest st queue
    else
      let r := followUser cfg.isDryRun cfg.followApi follower st.followedInSession
      if r.ok then
        let st1 : TravSt :=
          { st with followedInSession := r.session,
                    currentFollowing := follower :: st.currentFollowing,
                    trace := st.trace ++ [Ev.follow follower] }
        if withinDepth cfg.maxDepth (d + 1) then
          bfsFollowers cfg d par rest
            { st1 with trace := st1.trace ++ [Ev.enqueue follower (d + 1)] }
            (queue ++ [⟨follower, d + 1, some par⟩])
        else
          bfsFollowers cfg d par rest st1 queue
      else
        bfsFollowers cfg d par rest
          { st with trace := st.trace ++ [Ev.followFail follower] } queue

/-- The main `while (queue.length > 0)` loop of `bfsStalk`
(part_001 lines 324-425).  Dequeue the front node; skip it when its depth
is pruned or it was already processed; otherwise mark it processed, fetch
its followers and run the follower loop, which may extend the queue.  The
`fuel` argument expresses the unbounded while loop; `none` means the fuel
ran out before the queue emptied. -/
def bfsLoop (cfg : BfsCfg) : Nat → List BfsNode → TravSt → Option TravSt
  | 0, _, _ => none
  | _ + 1, [], st => some st
  | fuel + 1, node :: rest, st =>
    let st1 : TravSt := { st with trace := st.trace ++ [Ev.dequeue node.username node.depth] }
    if depthPruned cfg.maxDepth node.depth then
      bfsLoop cfg fuel rest st1
    else if node.username ∈ st1.processedUsers then
      bfsLoop cfg fuel rest st1
    else
      let st2 : TravSt :=
        { st1 with processedUsers := node.username :: st1.processedUsers,
                   trace := st1.trace ++ [Ev.expand node.username node.depth] }
      let r := bfsFollowers cfg node.depth node.username (cfg.fetch node.username) st2 rest
      bfsLoop cfg fuel r.2 r.1

/-- `bfsStalk rootUsername` (part_001 lines 307-425): run the BFS loop on
a queue seeded with the root at depth 0 and no parent. -/
def bfsStalk (cfg : BfsCfg) (root : Acct) (fuel : Nat) (st : TravSt) : Option TravSt :=
  bfsLoop cfg fuel [⟨root, 0, none⟩] st

/-! ## Depth-first engine (part_003 lines 232-307) -/

/-- Configuration of one DFS run (part_003 fixes `maxDepth = 3` and
`maxFollowsPerUser = 50`; both stay parameters here, `fetch` being the
already-capped `getUserFollowers` result). -/
structure DfsCfg where
  self : Acct
  isDryRun : Bool
  followApi : Acct → Except ApiErr Unit
  fetch : Acct → List Acct
  maxDepth : Nat

mutual

/-- `dfsStalk username depth` (part_003 lines 232-307): stop without
marking visited when the depth bound is reached or the node was already
processed; otherwise mark it processed, fetch its followers and process
them in order.  Returns the updated state and the `{followed, skipped}`
counts. -/
def dfsStalk (cfg : DfsCfg) (username : Acct) (st : TravSt) (depth : Nat) :
    TravSt × Nat × Nat :=
  if h : cfg.maxDepth ≤ depth then (st, 0, 0)
  else if username ∈ st.processedUsers then (st, 0, 0)
  else
    let st1 : TravSt :=
      { st with processedUsers := username :: st.processedUsers,
                trace := st.trace ++ [Ev.expand username depth] }
    dfsFollowers cfg (cfg.fetch username) st1 depth (Nat.lt_of_not_le h)
termination_by (cfg.maxDepth - depth, (cfg.fetch username).length + 1)

/-- The follower loop of `dfsStalk` (part_003 lines 262-303): skip self;
skip (and count as skipped) followers already in the following set or the
session set; otherwise follow, and on success immediately recurse into
the follower at `depth + 1` before moving to the next sibling; on failure
count as skipped and continue without recursing.  `hdepth` records that
the enclosing node passed the depth check. -/
def dfsFollowers (cfg : DfsCfg) (followers : List Acct) (st : TravSt) (depth : Nat)
    (hdepth : depth < cfg.maxDepth) : TravSt × Nat × Nat :=
  match followers with
  | [] => (st, 0, 0)
  | follower :: rest =>
    if follower = cfg.self then
      dfsFollowers cfg rest st depth hdepth
    else if follower ∈ st.currentFollowing ∨ follower ∈ st.followedInSession then
      let res := dfsFollowers cfg rest st depth hdepth
      (res.1, res.2.1, res.2.2 + 1)
    else
      let r := followUser cfg.isDryRun cfg.followApi follower st.followedInSession
      if r.ok then
        let st1 : TravSt :=
          { st with followedInSession := r.session,
                    currentFollowing := follower :: st.currentFollowing,
                    trace := st.trace ++ [Ev.follow follower] }
        let res2 := dfsStalk cfg follower st1 (depth + 1)
        let res3 := dfsFollowers cfg rest res2.1 depth hdepth
        (res3.1, 1 + res2.2.1 + res3.2.1, res2.2.2 + res3.2.2)
      else
        let res := dfsFollowers cfg rest
          { st with trace := st.trace ++ [Ev.followFail follower] } depth hdepth
        (res.1, res.2.1, res.2.2 + 1)
termination_by (cfg.maxDepth - depth, followers.length)

end

/-! ## Reconciliation: C1 -/

/-- C1.  For every pair of lists `following` and `followers`, the
reconciliation computes `toFollow` as exactly the elements of `followers`
not contained in `following` (in `followers` order, being a sublist) and
`toUnfollow` as exactly the elements of `following` not contained in
`followers` (in `following` order), and the two results are disjoint. -/
theorem reconcile_toFollow_toUnfollow (following followers : List Acct) :
    (∀ u, u ∈ (reconcile following followers).1 ↔ u ∈ followers ∧ u ∉ following)
  ∧ (∀ u, u ∈ (reconcile following followers).2 ↔ u ∈ following ∧ u ∉ followers)
  ∧ (reconcile following followers).1.Sublist followers
  ∧ (reconcile following followers).2.Sublist following
  ∧ (∀ u, ¬(u ∈ (reconcile following followers).1 ∧
            u ∈ (reconcile following followers).2)) := by
  refine ⟨?_, ?_, List.filter_sublist _, List.filter_sublist _, ?_⟩
  · intro u; simp [reconcile, List.mem_filter]
  · intro u; simp [reconcile, List.mem_filter]
  · intro u h
    rcases h with ⟨h1, h2⟩
    simp [reconcile, List.mem_filter] at h1 h2
    exact h1.2 h2.1

/-! ## Action executor: C7 -/

/-- C7.  `followUser`/`unfollowUser` are total (never throw): in dry-run
mode they issue no network request and always succeed, leaving the
session set untouched; in live mode a successful follow records the
account in the Session-Followed Set (follow only) and succeeds, while a
failing call is converted into a `false` result with no session change. -/
theorem followUnfollow_never_throw (api : Acct → Except ApiErr Unit)
    (u : Acct) (s : List Acct) (e : ApiErr) :
    (followUser true api u s = ⟨true, s, []⟩)
  ∧ (api u = .ok () → followUser false api u s = ⟨true, u :: s, [u]⟩)
  ∧ (api u = .error e → followUser false api u s = ⟨false, s, [u]⟩)
  ∧ (unfollowUser true api u = (true, []))
  ∧ (api u = .ok () → unfollowUser false api u = (true, [u]))
  ∧ (api u = .error e → unfollowUser false api u = (false, [u])) := by
  refine ⟨rfl, ?_, ?_, rfl, ?_, ?_⟩ <;> intro h <;> simp [followUser, unfollowUser, h]

/-! ## CLI bound validation: C9 -/

/-- Unfolding of `parseMaxDepth` on the argument pair it validates. -/
theorem parseMaxDepth_pair (v : String) :
    parseMaxDepth ["--max-depth", v] =
      match jsParseInt v with
      | none => .error "Invalid --max-depth value. Must be a positive integer."
      | some n =>
        if n < 1 then .error "Invalid --max-depth value. Must be a positive integer."
        else .ok (some n.toNat) := rfl

/-- Unfolding of `parseMaxFollows` on the argument pair it validates. -/
theorem parseMaxFollows_pair (v : String) :
    parseMaxFollows ["--max-follows", v] =
      match jsParseInt v with
      | none => .error "Invalid --max-follows value. Must be a positive integer."
      | some n =>
        if n < 1 then .error "Invalid --max-follows value. Must be a positive integer."
        else .ok (some n.toNat) := rfl

/-- C9 counterexample.  The value "3.7" is not a positive integer, yet
`parseInt("3.7", 10) = 3`, so both bound parsers accept it with bound 3
instead of raising the claimed fatal configuration error. -/
theorem parse_nonIntegerValue_accepted_cex :
    specPositiveInteger "3.7" = false
  ∧ parseMaxDepth ["--max-depth", "3.7"] = .ok (some 3)
  ∧ parseMaxFollows ["--max-follows", "3.7"] = .ok (some 3) := by
  exact ⟨rfl, rfl, rfl⟩

/-- A decimal digit is not one of the whitespace characters `parseInt`
skips. -/
theorem jsWhitespace_eq_false_of_isDigit {c : Char} (h : c.isDigit = true) :
    jsWhitespace c = false := by
  cases hws : jsWhitespace c with
  | false => rfl
  | true =>
    exfalso
    unfold jsWhitespace at hws
    simp only [Bool.or_eq_true, beq_iff_eq] at hws
    rcases hws with ((h1 | h1) | h1) | h1 <;> subst h1 <;> exact absurd h (by decide)

/-- `takeWhile isDigit` keeps a list of digits whole. -/
theorem takeWhile_isDigit_eq_self :
    ∀ (l : List Char), (∀ c ∈ l, c.isDigit = true) → l.takeWhile Char.isDigit = l
  | [], _ => rfl
  | c :: cs, h => by
    have hc : c.isDigit = true := h c (by simp)
    have ih := takeWhile_isDigit_eq_self cs (fun x hx => h x (by simp [hx]))
    simp [List.takeWhile_cons, hc, ih]

/-- `jsParseInt` on a nonempty all-digit string yields its decimal value. -/
theorem jsParseInt_of_digits (v : String) (c : Char) (cs : List Char)
    (hv : v.toList = c :: cs) (hall : ∀ x ∈ v.toList, x.isDigit = true) :
    jsParseInt v = some ((natOfDigits v.toList : Nat) : Int) := by
  have hc : c.isDigit = true := hall c (by rw [hv]; exact List.mem_cons_self c cs)
  have hws : jsWhitespace c = false := jsWhitespace_eq_false_of_isDigit hc
  have hneg : ¬(c = '-') := by rintro rfl; exact absurd hc (by decide)
  have hpos : ¬(c = '+') := by rintro rfl; exact absurd hc (by decide)
  have htake : (c :: cs).takeWhile Char.isDigit = c :: cs := by
    apply takeWhile_isDigit_eq_self
    intro x hx
    exact hall x (by rw [hv]; exact hx)
  unfold jsParseInt
  rw [hv, List.dropWhile_cons, if_neg (by simp [hws])]
  simp only [if_neg hneg, if_neg hpos, htake]
  simp

/-- C9 amended.  Validation follows ECMAScript `parseInt(v, 10)`, not
"is a positive integer": a value whose leading-integer parse fails or
yields an integer below 1 is a fatal configuration error, and a value
whose parse yields `n ≥ 1` is accepted with bound `n` — including
non-integer values with a valid integer prefix such as "3.7" (accepted
as 3).  Canonical positive-integer values are accepted with their exact
value. -/
theorem parse_bounds_amended (v : String) :
    (jsParseInt v = none →
      parseMaxDepth ["--max-depth", v] =
        .error "Invalid --max-depth value. Must be a positive integer."
      ∧ parseMaxFollows ["--max-follows", v] =
        .error "Invalid --max-follows value. Must be a positive integer.")
  ∧ (∀ n : Int, jsParseInt v = some n → n < 1 →
      parseMaxDepth ["--max-depth", v] =
        .error "Invalid --max-depth value. Must be a positive integer."
      ∧ parseMaxFollows ["--max-follows", v] =
        .error "Invalid --max-follows value. Must be a positive integer.")
  ∧ (∀ n : Int, jsParseInt v = some n → 1 ≤ n →
      parseMaxDepth ["--max-depth", v] = .ok (some n.toNat)
      ∧ parseMaxFollows ["--max-follows", v] = .ok (some n.toNat))
  ∧ (specPositiveInteger v = true →
      parseMaxDepth ["--max-depth", v] = .ok (some (natOfDigits v.toList))) := by
  refine ⟨?_, ?_, ?_, ?_⟩
  · intro h
    simp [parseMaxDepth_pair, parseMaxFollows_pair, h]
  · intro n h hn
    simp [parseMaxDepth_pair, parseMaxFollows_pair, h, hn]
  · intro n h hn
    have hnlt : ¬(n < 1) := by omega
    simp [parseMaxDepth_pair, parseMaxFollows_pair, h, hnlt]
  · intro hspec
    unfold specPositiveInteger at hspec
    simp only [Bool.and_eq_true, Bool.not_eq_true', List.all_eq_true,
      decide_eq_true_eq] at hspec
    obtain ⟨⟨hne, hall⟩, hge⟩ := hspec
    obtain ⟨c, cs, hv⟩ : ∃ c cs, v.toList = c :: cs := by
      cases hl : v.toList with
      | nil => rw [hl] at hne; exact absurd hne (by decide)
      | cons a l => exact ⟨a, l, rfl⟩
    have hparse := jsParseInt_of_digits v c cs hv hall
    have hnlt : ¬(((natOfDigits v.toList : Nat) : Int) < 1) := by omega
    simp [parseMaxDepth_pair, hparse, hnlt]
    have hge' : 1 ≤ natOfDigits v.data := hge
    omega

/-! ## Paginated fetcher error handling: C8 -/

/-- C8.  A failing page request while fetching a third-party account's
followers (404/forbidden or any other failure) makes `getUserFollowers`
return the partial list collected so far, at any point of the loop,
without failing; a failing page request while fetching the authenticated
user's own following list is rethrown and aborts the run. -/
theorem fetcher_error_handling
    (api2 : Nat → Nat → Except ApiErr (List Acct))
    (api1 : Nat → Except ApiErr (List Acct))
    (collected : List Acct) (fetched page effectiveLimit fuel : Nat) (e e1 : ApiErr)
    (hlt : fetched < effectiveLimit)
    (herr : api2 (min 100 (effectiveLimit - fetched)) page = .error e)
    (herr1 : api1 page = .error e1) :
    getUserFollowersAux api2 effectiveLimit collected fetched page = collected
  ∧ getAllFollowingAux api1 (fuel + 1) collected page =
      some (.error "Failed to fetch following list") := by
  constructor
  · rw [getUserFollowersAux]
    simp [hlt, herr]
  · simp [getAllFollowingAux, herr1]

/-- Witness for `fetcher_error_handling`: a concrete API whose third-party
request fails yields the empty partial list, and a concrete failing
own-list request aborts with the fatal error. -/
theorem fetcher_error_handling_witness :
    getUserFollowersAux (fun _ _ => .error .notFound) 5 [] 0 1 = []
  ∧ getAllFollowingAux (fun _ => .error (.other "boom")) 3 [] 1 =
      some (.error "Failed to fetch following list") :=
  fetcher_error_handling (fun _ _ => .error .notFound)
    (fun _ => .error (.other "boom")) [] 0 1 5 2 .notFound (.other "boom")
    (by decide) rfl rfl

/-- Collected-length bound for the `getUserFollowers` loop: when the API
honours `per_page` (a page holds at most `perPage` entries), the loop
adds at most `effectiveLimit - fetched` further entries. -/
theorem getUserFollowersAux_length_le
    (api : Nat → Nat → Except ApiErr (List Acct))
    (hapi : ∀ pp p l, api pp p = .ok l → l.length ≤ pp) :
    ∀ (k fetched : Nat) (collected : List Acct) (page effectiveLimit : Nat),
      effectiveLimit - fetched ≤ k →
      (getUserFollowersAux api effectiveLimit collected fetched page).length
        ≤ collected.length + (effectiveLimit - fetched) := by
  intro k
  induction k with
  | zero =>
    intro fetched collected page eff hk
    rw [getUserFollowersAux]
    have hnlt : ¬ fetched < eff := by omega
    simp [hnlt]
  | succ k ih =>
    intro fetched collected page eff hk
    rw [getUserFollowersAux]
    by_cases hlt : fetched < eff
    · simp only [dif_pos hlt]
      cases hdata : api (min 100 (eff - fetched)) page with
      | error err => simp
      | ok data =>
        have hlen : data.length ≤ min 100 (eff - fetched) := hapi _ _ _ hdata
        by_cases hz : data.length = 0
        · simp [hz]
        · by_cases hs : data.length < min 100 (eff - fetched)
          · simp only [dif_neg hz, dif_pos hs, List.length_append]
            omega
          · simp only [dif_neg hz, dif_neg hs]
            have hrec := ih (fetched + data.length) (collected ++ data) (page + 1) eff
              (by omega)
            simp only [List.length_append] at hrec
            omega
    · simp [hlt]

/-! ## BFS queue and measure invariants -/

/-- Number of universe accounts not yet in the following set: together
with the queue length this measures the remaining BFS work. -/
def countMissing (univ fol : List Acct) : Nat :=
  (univ.filter fun u => decide (u ∉ fol)).length

/-- Extending the following set never increases the measure. -/
theorem countMissing_cons_le (univ : List Acct) (fol : List Acct) (f : Acct) :
    countMissing univ (f :: fol) ≤ countMissing univ fol := by
  induction univ with
  | nil => exact Nat.le_refl _
  | cons u us ih =>
    unfold countMissing at ih ⊢
    by_cases hu2 : u ∈ f :: fol
    · rw [List.filter_cons_of_neg (by simp [hu2])]
      by_cases hu : u ∈ fol
      · rw [List.filter_cons_of_neg (by simp [hu])]
        exact ih
      · rw [List.filter_cons_of_pos (by simp [hu])]
        simp only [List.length_cons]
        omega
    · have hu : u ∉ fol := fun h => hu2 (List.mem_cons_of_mem f h)
      rw [List.filter_cons_of_pos (by simp [hu2]),
          List.filter_cons_of_pos (by simp [hu])]
      simp only [List.length_cons]
      omega

/-- Adding a genuinely new universe account to the following set strictly
decreases the measure. -/
theorem countMissing_cons_lt (univ : List Acct) (fol : List Acct) (f : Acct)
    (hf : f ∈ univ) (hnf : f ∉ fol) :
    countMissing univ (f :: fol) < countMissing univ fol := by
  induction univ with
  | nil => cases hf
  | cons u us ih =>
    unfold countMissing at ih ⊢
    by_cases huf : u = f
    · subst huf
      rw [List.filter_cons_of_neg (by simp), List.filter_cons_of_pos (by simp [hnf])]
      have hle := countMissing_cons_le us fol u
      unfold countMissing at hle
      simp only [List.length_cons]
      omega
    · have hf' : f ∈ us := by
        rcases List.mem_cons.mp hf with h | h
        · exact absurd h.symm huf
        · exact h
      have ihh := ih hf'
      by_cases hu : u ∈ fol
      · rw [List.filter_cons_of_neg (by simp [hu]), List.filter_cons_of_neg (by simp [hu])]
        exact ihh
      · rw [List.filter_cons_of_pos (by simp [hu, huf]),
            List.filter_cons_of_pos (by simp [hu])]
        simp only [List.length_cons]
        omega

/-- BFS queue invariant: depths are non-decreasing from front to back,
and any two queued nodes are within one level of each other. -/
def qOk (q : List BfsNode) : Prop :=
  List.Pairwise (fun a b => a.depth ≤ b.depth) q
  ∧ ∀ a ∈ q, ∀ b ∈ q, a.depth ≤ b.depth + 1

/-- A list of nodes of one common depth is sorted by depth. -/
theorem pairwise_le_of_const_depth (c : Nat) :
    ∀ (l : List BfsNode), (∀ b ∈ l, b.depth = c) →
      List.Pairwise (fun a b => a.depth ≤ b.depth) l
  | [], _ => List.Pairwise.nil
  | b :: bs, h => by
    rw [List.pairwise_cons]
    refine ⟨?_, pairwise_le_of_const_depth c bs (fun x hx => h x (by simp [hx]))⟩
    intro x hx
    rw [h b (by simp), h x (by simp [hx])]

/-- The queue invariant survives the BFS step: dropping the front node
and appending nodes one level below it. -/
theorem qOk_step (node : BfsNode) (rest tail : List BfsNode)
    (hq : qOk (node :: rest))
    (ht : ∀ b ∈ tail, b.depth = node.depth + 1) :
    qOk (rest ++ tail) := by
  obtain ⟨hsort, hpair⟩ := hq
  rw [List.pairwise_cons] at hsort
  obtain ⟨hhead, hrest⟩ := hsort
  constructor
  · rw [List.pairwise_append]
    refine ⟨hrest, pairwise_le_of_const_depth (node.depth + 1) tail ht, ?_⟩
    intro a ha b hb
    rw [ht b hb]
    have := hpair a (List.mem_cons_of_mem _ ha) node (List.mem_cons_self _ _)
    omega
  · intro a ha b hb
    rcases List.mem_append.mp ha with ha2 | ha2 <;>
      rcases List.mem_append.mp hb with hb2 | hb2
    · exact hpair a (List.mem_cons_of_mem _ ha2) b (List.mem_cons_of_mem _ hb2)
    · rw [ht b hb2]
      have := hpair a (List.mem_cons_of_mem _ ha2) node (List.mem_cons_self _ _)
      omega
    · rw [ht a ha2]
      have hnb : node.depth ≤ b.depth := hhead b hb2
      omega
    · rw [ht a ha2, ht b hb2]
      omega

/-- One-step unfolding of the BFS follower loop on a cons cell, with the
intermediate `let`s expanded. -/
theorem bfsFollowers_cons (cfg : BfsCfg) (d : Nat) (par : Acct) (f : Acct)
    (rest : List Acct) (st : TravSt) (q : List BfsNode) :
    bfsFollowers cfg d par (f :: rest) st q =
      if f = cfg.self then bfsFollowers cfg d par rest st q
      else if f ∈ st.currentFollowing ∨ f ∈ st.followedInSession then
        bfsFollowers cfg d par rest st q
      else if f ∈ st.processedUsers then bfsFollowers cfg d par rest st q
      else if (followUser cfg.isDryRun cfg.followApi f st.followedInSession).ok then
        if withinDepth cfg.maxDepth (d + 1) then
          bfsFollowers cfg d par rest
            { st with
                followedInSession :=
                  (followUser cfg.isDryRun cfg.followApi f st.followedInSession).session,
                currentFollowing := f :: st.currentFollowing,
                trace := st.trace ++ [Ev.follow f] ++ [Ev.enqueue f (d + 1)] }
            (q ++ [⟨f, d + 1, some par⟩])
        else
          bfsFollowers cfg d par rest
            { st with
                followedInSession :=
                  (followUser cfg.isDryRun cfg.followApi f st.followedInSession).session,
                currentFollowing := f :: st.currentFollowing,
                trace := st.trace ++ [Ev.follow f] }
            q
      else
        bfsFollowers cfg d par rest
          { st with trace := st.trace ++ [Ev.followFail f] } q := rfl

/-- Structural facts about one run of the BFS follower loop: the visited
set is untouched; the queue is extended at the tail with nodes at depth
`d + 1` that are never the authenticated account; the trace is extended
with follow/enqueue events only (no dequeue, no expansion, and no enqueue
of the authenticated account); in dry-run mode the session set is
untouched; the following set only grows; and every appended queue node is
paid for by a new member of the following set, so the traversal measure
does not increase. -/
theorem bfsFollowers_props (cfg : BfsCfg) (d : Nat) (par : Acct) (univ : List Acct) :
    ∀ (fs : List Acct) (st : TravSt) (q : List BfsNode),
      (bfsFollowers cfg d par fs st q).1.processedUsers = st.processedUsers
    ∧ (∃ tail, (bfsFollowers cfg d par fs st q).2 = q ++ tail
        ∧ ∀ b ∈ tail, b.depth = d + 1 ∧ b.username ≠ cfg.self)
    ∧ (∃ evs, (bfsFollowers cfg d par fs st q).1.trace = st.trace ++ evs
        ∧ ∀ ev ∈ evs,
            (∀ u dd, ev ≠ Ev.expand u dd)
          ∧ (∀ u dd, ev ≠ Ev.dequeue u dd)
          ∧ (∀ dd, ev ≠ Ev.enqueue cfg.self dd))
    ∧ (cfg.isDryRun = true →
        (bfsFollowers cfg d par fs st q).1.followedInSession = st.followedInSession)
    ∧ (∀ x ∈ st.currentFollowing,
        x ∈ (bfsFollowers cfg d par fs st q).1.currentFollowing)
    ∧ ((∀ x ∈ fs, x ∈ univ) →
        countMissing univ (bfsFollowers cfg d par fs st q).1.currentFollowing
            + (bfsFollowers cfg d par fs st q).2.length
          ≤ countMissing univ st.currentFollowing + q.length) := by
  intro fs
  induction fs with
  | nil =>
    intro st q
    refine ⟨rfl, ⟨[], by simp [bfsFollowers], by simp⟩,
      ⟨[], by simp [bfsFollowers], by simp⟩, fun _ => rfl, fun x hx => hx, ?_⟩
    intro _
    simp [bfsFollowers]
  | cons f rest ih =>
    intro st q
    by_cases h1 : f = cfg.self
    · rw [bfsFollowers_cons, if_pos h1]
      obtain ⟨p1, p2, p3, p4, p5, p6⟩ := ih st q
      exact ⟨p1, p2, p3, p4, p5,
        fun hfs => p6 (fun x hx => hfs x (List.mem_cons_of_mem f hx))⟩
    · by_cases h2 : f ∈ st.currentFollowing ∨ f ∈ st.followedInSession
      · rw [bfsFollowers_cons, if_neg h1, if_pos h2]
        obtain ⟨p1, p2, p3, p4, p5, p6⟩ := ih st q
        exact ⟨p1, p2, p3, p4, p5,
          fun hfs => p6 (fun x hx => hfs x (List.mem_cons_of_mem f hx))⟩
      · by_cases h3 : f ∈ st.processedUsers
        · rw [bfsFollowers_cons, if_neg h1, if_neg h2, if_pos h3]
          obtain ⟨p1, p2, p3, p4, p5, p6⟩ := ih st q
          exact ⟨p1, p2, p3, p4, p5,
            fun hfs => p6 (fun x hx => hfs x (List.mem_cons_of_mem f hx))⟩
        · by_cases hok : (followUser cfg.isDryRun cfg.followApi f st.followedInSession).ok = true
          · by_cases hw : withinDepth cfg.maxDepth (d + 1) = true
            · -- successful follow, enqueued for the next level
              rw [bfsFollowers_cons, if_neg h1, if_neg h2, if_neg h3, if_pos hok, if_pos hw]
              obtain ⟨p1, p2, p3, p4, p5, p6⟩ := ih
                { st with
                    followedInSession :=
                      (followUser cfg.isDryRun cfg.followApi f st.followedInSession).session,
                    currentFollowing := f :: st.currentFollowing,
                    trace := st.trace ++ [Ev.follow f] ++ [Ev.enqueue f (d + 1)] }
                (q ++ [⟨f, d + 1, some par⟩])
              refine ⟨p1, ?_, ?_, ?_, ?_, ?_⟩
              · obtain ⟨tail, htail, hprops⟩ := p2
                refine ⟨⟨f, d + 1, some par⟩ :: tail, ?_, ?_⟩
                · rw [htail]
                  simp
                · intro b hb
                  rcases List.mem_cons.mp hb with rfl | hb2
                  · exact ⟨rfl, h1⟩
                  · exact hprops b hb2
              · obtain ⟨evs, hevs, hp⟩ := p3
                refine ⟨Ev.follow f :: Ev.enqueue f (d + 1) :: evs, ?_, ?_⟩
                · rw [hevs]
                  simp
                · intro ev hev
                  rcases List.mem_cons.mp hev with rfl | hev2
                  · exact ⟨by simp, by simp, by simp⟩
                  rcases List.mem_cons.mp hev2 with rfl | hev3
                  · refine ⟨by simp, by simp, ?_⟩
                    intro dd heq
                    injection heq with hu hdd
                    exact h1 hu
                  · exact hp ev hev3
              · intro hdry
                rw [p4 hdry]
                show (followUser cfg.isDryRun cfg.followApi f st.followedInSession).session
                    = st.followedInSession
                rw [hdry]
                rfl
              · intro x hx
                exact p5 x (List.mem_cons_of_mem f hx)
              · intro hfs
                have hfu : f ∈ univ := hfs f (List.mem_cons_self f rest)
                have hff : f ∉ st.currentFollowing := fun hmem => h2 (Or.inl hmem)
                have hlt := countMissing_cons_lt univ st.currentFollowing f hfu hff
                have h6 := p6 (fun x hx => hfs x (List.mem_cons_of_mem f hx))
                simp only [List.length_append, List.length_cons, List.length_nil] at h6 ⊢
                omega
            · -- successful follow, next level beyond the depth bound: no enqueue
              rw [bfsFollowers_cons, if_neg h1, if_neg h2, if_neg h3, if_pos hok, if_neg hw]
              obtain ⟨p1, p2, p3, p4, p5, p6⟩ := ih
                { st with
                    followedInSession :=
                      (followUser cfg.isDryRun cfg.followApi f st.followedInSession).session,
                    currentFollowing := f :: st.currentFollowing,
                    trace := st.trace ++ [Ev.follow f] }
                q
              refine ⟨p1, p2, ?_, ?_, ?_, ?_⟩
              · obtain ⟨evs, hevs, hp⟩ := p3
                refine ⟨Ev.follow f :: evs, ?_, ?_⟩
                · rw [hevs]
                  simp
                · intro ev hev
                  rcases List.mem_cons.mp hev with rfl | hev2
                  · exact ⟨by simp, by simp, by simp⟩
                  · exact hp ev hev2
              · intro hdry
                rw [p4 hdry]
                show (followUser cfg.isDryRun cfg.followApi f st.followedInSession).session
                    = st.followedInSession
                rw [hdry]
                rfl
              · intro x hx
                exact p5 x (List.mem_cons_of_mem f hx)
              · intro hfs
                have hle := countMissing_cons_le univ st.currentFollowing f
                have h6 := p6 (fun x hx => hfs x (List.mem_cons_of_mem f hx))
                simp only [List.length_append, List.length_cons, List.length_nil] at h6 ⊢
                omega
          · -- follow failed: count as skipped and continue
            rw [bfsFollowers_cons, if_neg h1, if_neg h2, if_neg h3, if_neg hok]
            obtain ⟨p1, p2, p3, p4, p5, p6⟩ := ih
              { st with trace := st.trace ++ [Ev.followFail f] } q
            refine ⟨p1, p2, ?_, p4, p5, ?_⟩
            · obtain ⟨evs, hevs, hp⟩ := p3
              refine ⟨Ev.followFail f :: evs, ?_, ?_⟩
              · rw [hevs]
                simp
              · intro ev hev
                rcases List.mem_cons.mp hev with rfl | hev2
                · exact ⟨by simp, by simp, by simp⟩
                · exact hp ev hev2
            · intro hfs
              exact p6 (fun x hx => hfs x (List.mem_cons_of_mem f hx))

/-- One-step unfolding of the BFS loop on a nonempty queue. -/
theorem bfsLoop_cons (cfg : BfsCfg) (fuel : Nat) (node : BfsNode)
    (rest : List BfsNode) (st : TravSt) :
    bfsLoop cfg (fuel + 1) (node :: rest) st =
      if depthPruned cfg.maxDepth node.depth then
        bfsLoop cfg fuel rest
          { st with trace := st.trace ++ [Ev.dequeue node.username node.depth] }
      else if node.username ∈ st.processedUsers then
        bfsLoop cfg fuel rest
          { st with trace := st.trace ++ [Ev.dequeue node.username node.depth] }
      else
        bfsLoop cfg fuel
          (bfsFollowers cfg node.depth node.username (cfg.fetch node.username)
            { st with processedUsers := node.username :: st.processedUsers,
                      trace := st.trace ++ [Ev.dequeue node.username node.depth]
                        ++ [Ev.expand node.username node.depth] } rest).2
          (bfsFollowers cfg node.depth node.username (cfg.fetch node.username)
            { st with processedUsers := node.username :: st.processedUsers,
                      trace := st.trace ++ [Ev.dequeue node.username node.depth]
                        ++ [Ev.expand node.username node.depth] } rest).1 := rfl

/-- `expandedUsers` distributes over appending traces. -/
theorem expandedUsers_append (t u : List Ev) :
    expandedUsers (t ++ u) = expandedUsers t ++ expandedUsers u := by
  unfold expandedUsers
  exact List.filterMap_append _ _ _

/-- `dequeueDepths` distributes over appending traces. -/
theorem dequeueDepths_append (t u : List Ev) :
    dequeueDepths (t ++ u) = dequeueDepths t ++ dequeueDepths u := by
  unfold dequeueDepths
  exact List.filterMap_append _ _ _

/-- A trace with no expansion events contributes no expanded users. -/
theorem expandedUsers_eq_nil (evs : List Ev)
    (h : ∀ ev ∈ evs, ∀ u dd, ev ≠ Ev.expand u dd) : expandedUsers evs = [] := by
  induction evs with
  | nil => rfl
  | cons ev rest ih =>
    have hrest := ih (fun e he => h e (List.mem_cons_of_mem _ he))
    unfold expandedUsers at hrest ⊢
    cases ev with
    | expand u dd => exact absurd rfl (h _ (List.mem_cons_self _ _) u dd)
    | dequeue u dd => simpa using hrest
    | follow u => simpa using hrest
    | followFail u => simpa using hrest
    | enqueue u dd => simpa using hrest

/-- A trace with no dequeue events contributes no dequeue depths. -/
theorem dequeueDepths_eq_nil (evs : List Ev)
    (h : ∀ ev ∈ evs, ∀ u dd, ev ≠ Ev.dequeue u dd) : dequeueDepths evs = [] := by
  induction evs with
  | nil => rfl
  | cons ev rest ih =>
    have hrest := ih (fun e he => h e (List.mem_cons_of_mem _ he))
    unfold dequeueDepths at hrest ⊢
    cases ev with
    | dequeue u dd => exact absurd rfl (h _ (List.mem_cons_self _ _) u dd)
    | expand u dd => simpa using hrest
    | follow u => simpa using hrest
    | followFail u => simpa using hrest
    | enqueue u dd => simpa using hrest

/-- When the depth bound is `some m`, every expansion event a completed
BFS loop adds to the trace happens at a depth below `m`. -/
theorem bfsLoop_expand_bound (cfg : BfsCfg) (m : Nat) (hm : cfg.maxDepth = some m) :
    ∀ (fuel : Nat) (q : List BfsNode) (st st' : TravSt),
      bfsLoop cfg fuel q st = some st' →
      ∀ u dd, Ev.expand u dd ∈ st'.trace → Ev.expand u dd ∈ st.trace ∨ dd < m := by
  intro fuel
  induction fuel with
  | zero => intro q st st' h; cases h
  | succ fuel ih =>
    intro q st st' h
    match q with
    | [] =>
      cases h
      intro u dd hmem
      exact Or.inl hmem
    | node :: rest =>
      rw [bfsLoop_cons] at h
      by_cases hp : depthPruned cfg.maxDepth node.depth = true
      · rw [if_pos hp] at h
        intro u dd hmem
        rcases ih rest _ st' h u dd hmem with hin | hlt
        · rcases List.mem_append.mp hin with h2 | h2
          · exact Or.inl h2
          · simp at h2
        · exact Or.inr hlt
      · rw [if_neg hp] at h
        have hdlt : node.depth < m := by
          unfold depthPruned at hp
          rw [hm] at hp
          simp at hp
          omega
        by_cases hv : node.username ∈ st.processedUsers
        · rw [if_pos hv] at h
          intro u dd hmem
          rcases ih rest _ st' h u dd hmem with hin | hlt
          · rcases List.mem_append.mp hin with h2 | h2
            · exact Or.inl h2
            · simp at h2
          · exact Or.inr hlt
        · rw [if_neg hv] at h
          intro u dd hmem
          rcases ih _ _ st' h u dd hmem with hin | hlt
          · obtain ⟨-, -, ⟨evs, hevs, hp3⟩, -, -, -⟩ :=
              bfsFollowers_props cfg node.depth node.username []
                (cfg.fetch node.username)
                { st with processedUsers := node.username :: st.processedUsers,
                          trace := st.trace ++ [Ev.dequeue node.username node.depth]
                            ++ [Ev.expand node.username node.depth] } rest
            rw [hevs] at hin
            rcases List.mem_append.mp hin with h2 | h2
            · rcases List.mem_append.mp h2 with h3 | h3
              · rcases List.mem_append.mp h3 with h4 | h4
                · exact Or.inl h4
                · simp at h4
              · simp only [List.mem_singleton] at h3
                injection h3 with hu hdd
                subst hdd
                exact Or.inr hdlt
            · exact absurd rfl ((hp3 _ h2).1 u dd)
          · exact Or.inr hlt

/-- Dequeue depths of a completed BFS loop run from a well-formed queue
are non-decreasing, and each is at least the depth of some queued node. -/
theorem bfsLoop_dequeue_mono (cfg : BfsCfg) :
    ∀ (fuel : Nat) (q : List BfsNode) (st st' : TravSt),
      bfsLoop cfg fuel q st = some st' → qOk q →
      ∃ evs, st'.trace = st.trace ++ evs
        ∧ List.Pairwise (· ≤ ·) (dequeueDepths evs)
        ∧ ∀ x ∈ dequeueDepths evs, ∃ n, n ∈ q ∧ n.depth ≤ x := by
  intro fuel
  induction fuel with
  | zero => intro q st st' h; cases h
  | succ fuel ih =>
    intro q st st' h hq
    match q with
    | [] =>
      cases h
      exact ⟨[], by simp, List.Pairwise.nil, by simp [dequeueDepths]⟩
    | node :: rest =>
      rw [bfsLoop_cons] at h
      have hsorted := hq.1
      rw [List.pairwise_cons] at hsorted
      by_cases hp : depthPruned cfg.maxDepth node.depth = true
      · rw [if_pos hp] at h
        obtain ⟨evs, hevs, hpair, hbound⟩ := ih rest _ st' h
          ⟨hsorted.2, fun a ha b hb =>
            hq.2 a (List.mem_cons_of_mem _ ha) b (List.mem_cons_of_mem _ hb)⟩
        refine ⟨Ev.dequeue node.username node.depth :: evs, ?_, ?_, ?_⟩
        · rw [hevs]
          simp
        · show List.Pairwise (· ≤ ·) (dequeueDepths (Ev.dequeue node.username node.depth :: evs))
          unfold dequeueDepths
          rw [List.filterMap_cons]
          simp only []
          rw [List.pairwise_cons]
          refine ⟨?_, hpair⟩
          intro x hx
          obtain ⟨n, hn, hnx⟩ := hbound x hx
          exact Nat.le_trans (hsorted.1 n hn) hnx
        · intro x hx
          unfold dequeueDepths at hx
          rw [List.filterMap_cons] at hx
          simp only [] at hx
          rcases List.mem_cons.mp hx with rfl | hx2
          · exact ⟨node, List.mem_cons_self _ _, Nat.le_refl _⟩
          · obtain ⟨n, hn, hnx⟩ := hbound x hx2
            exact ⟨n, List.mem_cons_of_mem _ hn, hnx⟩
      · rw [if_neg hp] at h
        by_cases hv : node.username ∈ st.processedUsers
        · rw [if_pos hv] at h
          obtain ⟨evs, hevs, hpair, hbound⟩ := ih rest _ st' h
            ⟨hsorted.2, fun a ha b hb =>
              hq.2 a (List.mem_cons_of_mem _ ha) b (List.mem_cons_of_mem _ hb)⟩
          refine ⟨Ev.dequeue node.username node.depth :: evs, ?_, ?_, ?_⟩
          · rw [hevs]
            simp
          · unfold dequeueDepths
            rw [List.filterMap_cons]
            simp only []
            rw [List.pairwise_cons]
            refine ⟨?_, hpair⟩
            intro x hx
            obtain ⟨n, hn, hnx⟩ := hbound x hx
            exact Nat.le_trans (hsorted.1 n hn) hnx
          · intro x hx
            unfold dequeueDepths at hx
            rw [List.filterMap_cons] at hx
            simp only [] at hx
            rcases List.mem_cons.mp hx with rfl | hx2
            · exact ⟨node, List.mem_cons_self _ _, Nat.le_refl _⟩
            · obtain ⟨n, hn, hnx⟩ := hbound x hx2
              exact ⟨n, List.mem_cons_of_mem _ hn, hnx⟩
        · rw [if_neg hv] at h
          obtain ⟨p1, p2, p3, p4, p5, p6⟩ :=
            bfsFollowers_props cfg node.depth node.username []
              (cfg.fetch node.username)
              { st with processedUsers := node.username :: st.processedUsers,
                        trace := st.trace ++ [Ev.dequeue node.username node.depth]
                          ++ [Ev.expand node.username node.depth] } rest
          obtain ⟨tail, htail, htprops⟩ := p2
          obtain ⟨bevs, hbevs, hbprops⟩ := p3
          have hq2 : qOk ((bfsFollowers cfg node.depth node.username
              (cfg.fetch node.username)
              { st with processedUsers := node.username :: st.processedUsers,
                        trace := st.trace ++ [Ev.dequeue node.username node.depth]
                          ++ [Ev.expand node.username node.depth] } rest).2) := by
            rw [htail]
            exact qOk_step node rest tail hq (fun b hb => (htprops b hb).1)
          obtain ⟨evs, hevs, hpair, hbound⟩ := ih _ _ st' h hq2
          rw [hbevs] at hevs
          refine ⟨Ev.dequeue node.username node.depth ::
            Ev.expand node.username node.depth :: (bevs ++ evs), ?_, ?_, ?_⟩
          · rw [hevs]
            simp
          · have hde : dequeueDepths (Ev.dequeue node.username node.depth ::
                Ev.expand node.username node.depth :: (bevs ++ evs)) =
                node.depth :: dequeueDepths evs := by
              unfold dequeueDepths
              rw [List.filterMap_cons, List.filterMap_cons, List.filterMap_append]
              have hnil : List.filterMap (fun e =>
                  match e with
                  | Ev.dequeue _ d => some d
                  | _ => none) bevs = [] := by
                have := dequeueDepths_eq_nil bevs
                  (fun ev hev u dd => (hbprops ev hev).2.1 u dd)
                unfold dequeueDepths at this
                exact this
              rw [hnil]
              simp
            rw [hde, List.pairwise_cons]
            refine ⟨?_, hpair⟩
            intro x hx
            obtain ⟨n, hn, hnx⟩ := hbound x hx
            rw [htail] at hn
            rcases List.mem_append.mp hn with hn2 | hn2
            · exact Nat.le_trans (hsorted.1 n hn2) hnx
            · have := (htprops n hn2).1
              omega
          · intro x hx
            have hde : dequeueDepths (Ev.dequeue node.username node.depth ::
                Ev.expand node.username node.depth :: (bevs ++ evs)) =
                node.depth :: dequeueDepths evs := by
              unfold dequeueDepths
              rw [List.filterMap_cons, List.filterMap_cons, List.filterMap_append]
              have hnil : List.filterMap (fun e =>
                  match e with
                  | Ev.dequeue _ d => some d
                  | _ => none) bevs = [] := by
                have := dequeueDepths_eq_nil bevs
                  (fun ev hev u dd => (hbprops ev hev).2.1 u dd)
                unfold dequeueDepths at this
                exact this
              rw [hnil]
              simp
            rw [hde] at hx
            rcases List.mem_cons.mp hx with rfl | hx2
            · exact ⟨node, List.mem_cons_self _ _, Nat.le_refl _⟩
            · obtain ⟨n, hn, hnx⟩ := hbound x hx2
              rw [htail] at hn
              rcases List.mem_append.mp hn with hn2 | hn2
              · exact ⟨n, List.mem_cons_of_mem _ hn2, hnx⟩
              · refine ⟨node, List.mem_cons_self _ _, ?_⟩
                have := (htprops n hn2).1
                omega

/-- When the seed queue never mentions the authenticated account and it
was not already visited, a completed BFS loop never adds the
authenticated account to the visited set and never dequeues, expands or
enqueues it. -/
theorem bfsLoop_self_safe (cfg : BfsCfg) :
    ∀ (fuel : Nat) (q : List BfsNode) (st st' : TravSt),
      bfsLoop cfg fuel q st = some st' →
      cfg.self ∉ st.processedUsers →
      (∀ n ∈ q, n.username ≠ cfg.self) →
      cfg.self ∉ st'.processedUsers
      ∧ (∀ dd, Ev.dequeue cfg.self dd ∈ st'.trace → Ev.dequeue cfg.self dd ∈ st.trace)
      ∧ (∀ dd, Ev.expand cfg.self dd ∈ st'.trace → Ev.expand cfg.self dd ∈ st.trace)
      ∧ (∀ dd, Ev.enqueue cfg.self dd ∈ st'.trace → Ev.enqueue cfg.self dd ∈ st.trace) := by
  intro fuel
  induction fuel with
  | zero => intro q st st' h; cases h
  | succ fuel ih =>
    intro q st st' h hproc hqueue
    match q with
    | [] =>
      cases h
      exact ⟨hproc, fun _ hd => hd, fun _ hd => hd, fun _ hd => hd⟩
    | node :: rest =>
      rw [bfsLoop_cons] at h
      have hqrest : ∀ n ∈ rest, n.username ≠ cfg.self :=
        fun n hn => hqueue n (List.mem_cons_of_mem _ hn)
      have hnodene : node.username ≠ cfg.self := hqueue node (List.mem_cons_self _ _)
      by_cases hp : depthPruned cfg.maxDepth node.depth = true
      · rw [if_pos hp] at h
        obtain ⟨c1, c2, c3, c4⟩ := ih rest _ st' h hproc hqrest
        refine ⟨c1, ?_, ?_, ?_⟩
        · intro dd hd
          rcases List.mem_append.mp (c2 dd hd) with h2 | h2
          · exact h2
          · simp only [List.mem_singleton] at h2
            injection h2 with hu hdd
            exact absurd hu.symm hnodene
        · intro dd hd
          rcases List.mem_append.mp (c3 dd hd) with h2 | h2
          · exact h2
          · simp at h2
        · intro dd hd
          rcases List.mem_append.mp (c4 dd hd) with h2 | h2
          · exact h2
          · simp at h2
      · rw [if_neg hp] at h
        by_cases hv : node.username ∈ st.processedUsers
        · rw [if_pos hv] at h
          obtain ⟨c1, c2, c3, c4⟩ := ih rest _ st' h hproc hqrest
          refine ⟨c1, ?_, ?_, ?_⟩
          · intro dd hd
            rcases List.mem_append.mp (c2 dd hd) with h2 | h2
            · exact h2
            · simp only [List.mem_singleton] at h2
              injection h2 with hu hdd
              exact absurd hu.symm hnodene
          · intro dd hd
            rcases List.mem_append.mp (c3 dd hd) with h2 | h2
            · exact h2
            · simp at h2
          · intro dd hd
            rcases List.mem_append.mp (c4 dd hd) with h2 | h2
            · exact h2
            · simp at h2
        · rw [if_neg hv] at h
          obtain ⟨p1, p2, p3, p4, p5, p6⟩ :=
            bfsFollowers_props cfg node.depth node.username []
              (cfg.fetch node.username)
              { st with processedUsers := node.username :: st.processedUsers,
                        trace := st.trace ++ [Ev.dequeue node.username node.depth]
                          ++ [Ev.expand node.username node.depth] } rest
          obtain ⟨tail, htail, htprops⟩ := p2
          obtain ⟨bevs, hbevs, hbprops⟩ := p3
          have hproc2 : cfg.self ∉ (bfsFollowers cfg node.depth node.username
              (cfg.fetch node.username)
              { st with processedUsers := node.username :: st.processedUsers,
                        trace := st.trace ++ [Ev.dequeue node.username node.depth]
                          ++ [Ev.expand node.username node.depth] } rest).1.processedUsers := by
            rw [p1]
            intro hmem
            rcases List.mem_cons.mp hmem with h2 | h2
            · exact hnodene h2.symm
            · exact hproc h2
          have hq2 : ∀ n ∈ (bfsFollowers cfg node.depth node.username
              (cfg.fetch node.username)
              { st with processedUsers := node.username :: st.processedUsers,
                        trace := st.trace ++ [Ev.dequeue node.username node.depth]
                          ++ [Ev.expand node.username node.depth] } rest).2,
              n.username ≠ cfg.self := by
            rw [htail]
            intro n hn
            rcases List.mem_append.mp hn with h2 | h2
            · exact hqrest n h2
            · exact (htprops n h2).2
          obtain ⟨c1, c2, c3, c4⟩ := ih _ _ st' h hproc2 hq2
          have hsplit : ∀ ev : Ev, ev ∈ (bfsFollowers cfg node.depth node.username
              (cfg.fetch node.username)
              { st with processedUsers := node.username :: st.processedUsers,
                        trace := st.trace ++ [Ev.dequeue node.username node.depth]
                          ++ [Ev.expand node.username node.depth] } rest).1.trace →
              ev ∈ st.trace ∨ ev = Ev.dequeue node.username node.depth
                ∨ ev = Ev.expand node.username node.depth ∨ ev ∈ bevs := by
            intro ev hev
            rw [hbevs] at hev
            rcases List.mem_append.mp hev with h2 | h2
            · rcases List.mem_append.mp h2 with h3 | h3
              · rcases List.mem_append.mp h3 with h4 | h4
                · exact Or.inl h4
                · simp only [List.mem_singleton] at h4
                  exact Or.inr (Or.inl h4)
              · simp only [List.mem_singleton] at h3
                exact Or.inr (Or.inr (Or.inl h3))
            · exact Or.inr (Or.inr (Or.inr h2))
          refine ⟨c1, ?_, ?_, ?_⟩
          · intro dd hd
            rcases hsplit _ (c2 dd hd) with h2 | h2 | h2 | h2
            · exact h2
            · injection h2 with hu hdd
              exact absurd hu.symm hnodene
            · cases h2
            · exact absurd rfl ((hbprops _ h2).2.1 cfg.self dd)
          · intro dd hd
            rcases hsplit _ (c3 dd hd) with h2 | h2 | h2 | h2
            · exact h2
            · cases h2
            · injection h2 with hu hdd
              exact absurd hu.symm hnodene
            · exact absurd rfl ((hbprops _ h2).1 cfg.self dd)
          · intro dd hd
            rcases hsplit _ (c4 dd hd) with h2 | h2 | h2 | h2
            · exact h2
            · cases h2
            · cases h2
            · exact absurd rfl ((hbprops _ h2).2.2 dd)

/-- A completed BFS loop keeps the visited set duplicate-free, keeps every
expanded user in the visited set, and expands each username at most
once. -/
theorem bfsLoop_visited_once (cfg : BfsCfg) :
    ∀ (fuel : Nat) (q : List BfsNode) (st st' : TravSt),
      bfsLoop cfg fuel q st = some st' →
      st.processedUsers.Nodup →
      (∀ v ∈ expandedUsers st.trace, v ∈ st.processedUsers) →
      (expandedUsers st.trace).Nodup →
      st'.processedUsers.Nodup
      ∧ (∀ v ∈ expandedUsers st'.trace, v ∈ st'.processedUsers)
      ∧ (expandedUsers st'.trace).Nodup := by
  intro fuel
  induction fuel with
  | zero => intro q st st' h; cases h
  | succ fuel ih =>
    intro q st st' h hnd hsub hend
    match q with
    | [] =>
      cases h
      exact ⟨hnd, hsub, hend⟩
    | node :: rest =>
      rw [bfsLoop_cons] at h
      have hexp1 : expandedUsers (st.trace ++ [Ev.dequeue node.username node.depth])
          = expandedUsers st.trace := by
        rw [expandedUsers_append]
        simp [expandedUsers]
      by_cases hp : depthPruned cfg.maxDepth node.depth = true
      · rw [if_pos hp] at h
        refine ih rest _ st' h hnd ?_ ?_
        · intro v hv
          rw [hexp1] at hv
          exact hsub v hv
        · rw [hexp1]
          exact hend
      · rw [if_neg hp] at h
        by_cases hv : node.username ∈ st.processedUsers
        · rw [if_pos hv] at h
          refine ih rest _ st' h hnd ?_ ?_
          · intro v hvv
            rw [hexp1] at hvv
            exact hsub v hvv
          · rw [hexp1]
            exact hend
        · rw [if_neg hv] at h
          obtain ⟨p1, p2, p3, p4, p5, p6⟩ :=
            bfsFollowers_props cfg node.depth node.username []
              (cfg.fetch node.username)
              { st with processedUsers := node.username :: st.processedUsers,
                        trace := st.trace ++ [Ev.dequeue node.username node.depth]
                          ++ [Ev.expand node.username node.depth] } rest
          obtain ⟨bevs, hbevs, hbprops⟩ := p3
          have hbnil : expandedUsers bevs = [] :=
            expandedUsers_eq_nil bevs (fun ev hev u dd => (hbprops ev hev).1 u dd)
          have hexp2 : expandedUsers ((bfsFollowers cfg node.depth node.username
              (cfg.fetch node.username)
              { st with processedUsers := node.username :: st.processedUsers,
                        trace := st.trace ++ [Ev.dequeue node.username node.depth]
                          ++ [Ev.expand node.username node.depth] } rest).1.trace)
              = expandedUsers st.trace ++ [node.username] := by
            rw [hbevs, expandedUsers_append, hbnil, List.append_nil,
              expandedUsers_append, expandedUsers_append]
            simp [expandedUsers]
          refine ih _ _ st' h ?_ ?_ ?_
          · rw [p1]
            exact List.nodup_cons.mpr ⟨hv, hnd⟩
          · intro v hvv
            rw [hexp2] at hvv
            rw [p1]
            rcases List.mem_append.mp hvv with h2 | h2
            · exact List.mem_cons_of_mem _ (hsub v h2)
            · simp only [List.mem_singleton] at h2
              subst h2
              exact List.mem_cons_self _ _
          · rw [hexp2, List.nodup_append]
            refine ⟨hend, by simp, ?_⟩
            intro a ha hb
            simp only [List.mem_singleton] at hb
            subst hb
            exact hv (hsub _ ha)

/-- In dry-run mode a completed BFS loop never changes the
Session-Followed Set. -/
theorem bfsLoop_dry_session (cfg : BfsCfg) (hdry : cfg.isDryRun = true) :
    ∀ (fuel : Nat) (q : List BfsNode) (st st' : TravSt),
      bfsLoop cfg fuel q st = some st' →
      st'.followedInSession = st.followedInSession := by
  intro fuel
  induction fuel with
  | zero => intro q st st' h; cases h
  | succ fuel ih =>
    intro q st st' h
    match q with
    | [] =>
      cases h
      rfl
    | node :: rest =>
      rw [bfsLoop_cons] at h
      by_cases hp : depthPruned cfg.maxDepth node.depth = true
      · rw [if_pos hp] at h
        exact ih rest
          { st with trace := st.trace ++ [Ev.dequeue node.username node.depth] } st' h
      · rw [if_neg hp] at h
        by_cases hv : node.username ∈ st.processedUsers
        · rw [if_pos hv] at h
          exact ih rest
            { st with trace := st.trace ++ [Ev.dequeue node.username node.depth] } st' h
        · rw [if_neg hv] at h
          obtain ⟨-, -, -, p4, -, -⟩ :=
            bfsFollowers_props cfg node.depth node.username []
              (cfg.fetch node.username)
              { st with processedUsers := node.username :: st.processedUsers,
                        trace := st.trace ++ [Ev.dequeue node.username node.depth]
                          ++ [Ev.expand node.username node.depth] } rest
          have hrec := ih _ _ st' h
          rw [hrec, p4 hdry]

/-- BFS completion: in a finite follower graph (every fetched follower
lies in `univ`), fuel exceeding the measure `countMissing + |queue|`
makes the loop drain its queue. -/
theorem bfsLoop_complete (cfg : BfsCfg) (univ : List Acct)
    (hU : ∀ v, ∀ x ∈ cfg.fetch v, x ∈ univ) :
    ∀ (fuel : Nat) (q : List BfsNode) (st : TravSt),
      countMissing univ st.currentFollowing + q.length < fuel →
      ∃ st', bfsLoop cfg fuel q st = some st' := by
  intro fuel
  induction fuel with
  | zero => intro q st hfuel; omega
  | succ fuel ih =>
    intro q st hfuel
    match q with
    | [] => exact ⟨st, rfl⟩
    | node :: rest =>
      rw [bfsLoop_cons]
      simp only [List.length_cons] at hfuel
      by_cases hp : depthPruned cfg.maxDepth node.depth = true
      · rw [if_pos hp]
        exact ih rest _ (by
          show countMissing univ st.currentFollowing + rest.length < fuel
          omega)
      · rw [if_neg hp]
        by_cases hv : node.username ∈ st.processedUsers
        · rw [if_pos hv]
          exact ih rest _ (by
            show countMissing univ st.currentFollowing + rest.length < fuel
            omega)
        · rw [if_neg hv]
          obtain ⟨-, -, -, -, -, p6⟩ :=
            bfsFollowers_props cfg node.depth node.username univ
              (cfg.fetch node.username)
              { st with processedUsers := node.username :: st.processedUsers,
                        trace := st.trace ++ [Ev.dequeue node.username node.depth]
                          ++ [Ev.expand node.username node.depth] } rest
          apply ih
          apply Nat.lt_of_le_of_lt (p6 (hU node.username))
          show countMissing univ st.currentFollowing + rest.length < fuel
          omega

/-! ## DFS unfolding equations -/

/-- `dfsStalk` at or beyond the depth bound: return without visiting. -/
theorem dfsStalk_base (cfg : DfsCfg) (username : Acct) (st : TravSt) (depth : Nat)
    (h : cfg.maxDepth ≤ depth) :
    dfsStalk cfg username st depth = (st, 0, 0) := by
  rw [dfsStalk]
  rw [dif_pos h]

/-- `dfsStalk` on an already-visited node: return without re-expanding. -/
theorem dfsStalk_visited (cfg : DfsCfg) (username : Acct) (st : TravSt) (depth : Nat)
    (h : ¬ cfg.maxDepth ≤ depth) (hvis : username ∈ st.processedUsers) :
    dfsStalk cfg username st depth = (st, 0, 0) := by
  rw [dfsStalk]
  rw [dif_neg h, if_pos hvis]

/-- `dfsStalk` on a fresh node within the bound: mark visited and process
the fetched followers. -/
theorem dfsStalk_expand (cfg : DfsCfg) (username : Acct) (st : TravSt) (depth : Nat)
    (h : ¬ cfg.maxDepth ≤ depth) (hvis : username ∉ st.processedUsers) :
    dfsStalk cfg username st depth =
      dfsFollowers cfg (cfg.fetch username)
        { st with processedUsers := username :: st.processedUsers,
                  trace := st.trace ++ [Ev.expand username depth] }
        depth (Nat.lt_of_not_le h) := by
  rw [dfsStalk]
  rw [dif_neg h, if_neg hvis]

/-- `dfsFollowers` on the empty follower list. -/
theorem dfsFollowers_nil (cfg : DfsCfg) (st : TravSt) (depth : Nat)
    (hd : depth < cfg.maxDepth) :
    dfsFollowers cfg [] st depth hd = (st, 0, 0) := by
  rw [dfsFollowers]

/-- `dfsFollowers` skipping the authenticated account. -/
theorem dfsFollowers_cons_self (cfg : DfsCfg) (f : Acct) (rest : List Acct)
    (st : TravSt) (depth : Nat) (hd : depth < cfg.maxDepth) (h1 : f = cfg.self) :
    dfsFollowers cfg (f :: rest) st depth hd = dfsFollowers cfg rest st depth hd := by
  rw [dfsFollowers]
  rw [if_pos h1]

/-- `dfsFollowers` skipping an already-followed account, counting it. -/
theorem dfsFollowers_cons_skip (cfg : DfsCfg) (f : Acct) (rest : List Acct)
    (st : TravSt) (depth : Nat) (hd : depth < cfg.maxDepth) (h1 : ¬ f = cfg.self)
    (h2 : f ∈ st.currentFollowing ∨ f ∈ st.followedInSession) :
    dfsFollowers cfg (f :: rest) st depth hd =
      ((dfsFollowers cfg rest st depth hd).1,
       (dfsFollowers cfg rest st depth hd).2.1,
       (dfsFollowers cfg rest st depth hd).2.2 + 1) := by
  rw [dfsFollowers]
  rw [if_neg h1, if_pos h2]

/-- `dfsFollowers` on a successful follow: recurse into the follower at
`depth + 1`, complete that whole branch, then process the remaining
siblings from the state the branch produced. -/
theorem dfsFollowers_cons_ok (cfg : DfsCfg) (f : Acct) (rest : List Acct)
    (st : TravSt) (depth : Nat) (hd : depth < cfg.maxDepth) (h1 : ¬ f = cfg.self)
    (h2 : ¬ (f ∈ st.currentFollowing ∨ f ∈ st.followedInSession))
    (hok : (followUser cfg.isDryRun cfg.followApi f st.followedInSession).ok = true) :
    dfsFollowers cfg (f :: rest) st depth hd =
      ((dfsFollowers cfg rest
          (dfsStalk cfg f
            { st with
                followedInSession :=
                  (followUser cfg.isDryRun cfg.followApi f st.followedInSession).session,
                currentFollowing := f :: st.currentFollowing,
                trace := st.trace ++ [Ev.follow f] }
            (depth + 1)).1 depth hd).1,
       1 + (dfsStalk cfg f
            { st with
                followedInSession :=
                  (followUser cfg.isDryRun cfg.followApi f st.followedInSession).session,
                currentFollowing := f :: st.currentFollowing,
                trace := st.trace ++ [Ev.follow f] }
            (depth + 1)).2.1
         + (dfsFollowers cfg rest
            (dfsStalk cfg f
              { st with
                  followedInSession :=
                    (followUser cfg.isDryRun cfg.followApi f st.followedInSession).session,
                  currentFollowing := f :: st.currentFollowing,
                  trace := st.trace ++ [Ev.follow f] }
              (depth + 1)).1 depth hd).2.1,
       (dfsStalk cfg f
            { st with
                followedInSession :=
                  (followUser cfg.isDryRun cfg.followApi f st.followedInSession).session,
                currentFollowing := f :: st.currentFollowing,
                trace := st.trace ++ [Ev.follow f] }
            (depth + 1)).2.2
         + (dfsFollowers cfg rest
            (dfsStalk cfg f
              { st with
                  followedInSession :=
                    (followUser cfg.isDryRun cfg.followApi f st.followedInSession).session,
                  currentFollowing := f :: st.currentFollowing,
                  trace := st.trace ++ [Ev.follow f] }
              (depth + 1)).1 depth hd).2.2) := by
  rw [dfsFollowers]
  rw [if_neg h1, if_neg h2, if_pos hok]

/-- `dfsFollowers` on a failed follow: count as skipped and continue with
the next sibling, with no recursion into the follower. -/
theorem dfsFollowers_cons_fail (cfg : DfsCfg) (f : Acct) (rest : List Acct)
    (st : TravSt) (depth : Nat) (hd : depth < cfg.maxDepth) (h1 : ¬ f = cfg.self)
    (h2 : ¬ (f ∈ st.currentFollowing ∨ f ∈ st.followedInSession))
    (hfail : ¬ (followUser cfg.isDryRun cfg.followApi f st.followedInSession).ok = true) :
    dfsFollowers cfg (f :: rest) st depth hd =
      ((dfsFollowers cfg rest
          { st with trace := st.trace ++ [Ev.followFail f] } depth hd).1,
       (dfsFollowers cfg rest
          { st with trace := st.trace ++ [Ev.followFail f] } depth hd).2.1,
       (dfsFollowers cfg rest
          { st with trace := st.trace ++ [Ev.followFail f] } depth hd).2.2 + 1) := by
  rw [dfsFollowers]
  rw [if_neg h1, if_neg h2, if_neg hfail]

/-- Invariant carried through the DFS: duplicate-free visited set that
contains every expanded username, each username expanded at most once. -/
def DfsInv (st : TravSt) : Prop :=
  st.processedUsers.Nodup
  ∧ (∀ v ∈ expandedUsers st.trace, v ∈ st.processedUsers)
  ∧ (expandedUsers st.trace).Nodup

/-- The invariant survives updating the session/following sets and
appending expansion-free events to the trace. -/
theorem DfsInv_extend_nonexpand (st : TravSt) (ses fol : List Acct) (evs : List Ev)
    (hevs : expandedUsers evs = []) (hinv : DfsInv st) :
    DfsInv { st with followedInSession := ses, currentFollowing := fol,
                     trace := st.trace ++ evs } := by
  obtain ⟨a, b, c⟩ := hinv
  have htr : expandedUsers (st.trace ++ evs) = expandedUsers st.trace := by
    rw [expandedUsers_append, hevs, List.append_nil]
  refine ⟨a, ?_, ?_⟩
  · intro v hv
    have hv2 : v ∈ expandedUsers (st.trace ++ evs) := hv
    rw [htr] at hv2
    exact b v hv2
  · show (expandedUsers (st.trace ++ evs)).Nodup
    rw [htr]
    exact c

/-- The invariant survives marking a fresh node visited together with its
expansion event. -/
theorem DfsInv_expand_step (st : TravSt) (username : Acct) (depth : Nat)
    (hvis : username ∉ st.processedUsers) (hinv : DfsInv st) :
    DfsInv { st with processedUsers := username :: st.processedUsers,
                     trace := st.trace ++ [Ev.expand username depth] } := by
  obtain ⟨a, b, c⟩ := hinv
  have htr : expandedUsers (st.trace ++ [Ev.expand username depth])
      = expandedUsers st.trace ++ [username] := by
    rw [expandedUsers_append]
    simp [expandedUsers]
  refine ⟨List.nodup_cons.mpr ⟨hvis, a⟩, ?_, ?_⟩
  · intro v hv
    have hv2 : v ∈ expandedUsers (st.trace ++ [Ev.expand username depth]) := hv
    rw [htr] at hv2
    show v ∈ username :: st.processedUsers
    rcases List.mem_append.mp hv2 with h2 | h2
    · exact List.mem_cons_of_mem _ (b v h2)
    · simp only [List.mem_singleton] at h2
      subst h2
      exact List.mem_cons_self _ _
  · show (expandedUsers (st.trace ++ [Ev.expand username depth])).Nodup
    rw [htr, List.nodup_append]
    refine ⟨c, by simp, ?_⟩
    intro x hx hx2
    simp only [List.mem_singleton] at hx2
    subst hx2
    exact hvis (b x hx)

/-- The DFS preserves the visited-once invariant, by induction on the
remaining depth budget (the well-founded measure of the mutual
recursion). -/
theorem dfs_inv_measure (cfg : DfsCfg) :
    ∀ k : Nat,
      (∀ (username : Acct) (st : TravSt) (depth : Nat),
        cfg.maxDepth - depth ≤ k → DfsInv st →
        DfsInv (dfsStalk cfg username st depth).1
        ∧ ∀ v ∈ st.processedUsers, v ∈ (dfsStalk cfg username st depth).1.processedUsers)
    ∧ (∀ (fs : List Acct) (st : TravSt) (depth : Nat) (hd : depth < cfg.maxDepth),
        cfg.maxDepth - depth ≤ k → DfsInv st →
        DfsInv (dfsFollowers cfg fs st depth hd).1
        ∧ ∀ v ∈ st.processedUsers, v ∈ (dfsFollowers cfg fs st depth hd).1.processedUsers) := by
  intro k
  induction k with
  | zero =>
    constructor
    · intro username st depth hk hinv
      rw [dfsStalk_base cfg username st depth (by omega)]
      exact ⟨hinv, fun v hv => hv⟩
    · intro fs st depth hd hk hinv
      omega
  | succ k ih =>
    have hF : ∀ (fs : List Acct) (st : TravSt) (depth : Nat) (hd : depth < cfg.maxDepth),
        cfg.maxDepth - depth ≤ k + 1 → DfsInv st →
        DfsInv (dfsFollowers cfg fs st depth hd).1
        ∧ ∀ v ∈ st.processedUsers,
            v ∈ (dfsFollowers cfg fs st depth hd).1.processedUsers := by
      intro fs
      induction fs with
      | nil =>
        intro st depth hd hk hinv
        rw [dfsFollowers_nil]
        exact ⟨hinv, fun v hv => hv⟩
      | cons f rest ihf =>
        intro st depth hd hk hinv
        by_cases h1 : f = cfg.self
        · rw [dfsFollowers_cons_self cfg f rest st depth hd h1]
          exact ihf st depth hd hk hinv
        · by_cases h2 : f ∈ st.currentFollowing ∨ f ∈ st.followedInSession
          · rw [dfsFollowers_cons_skip cfg f rest st depth hd h1 h2]
            exact ihf st depth hd hk hinv
          · by_cases hok : (followUser cfg.isDryRun cfg.followApi f
                st.followedInSession).ok = true
            · rw [dfsFollowers_cons_ok cfg f rest st depth hd h1 h2 hok]
              have hinv1 : DfsInv { st with
                  followedInSession := (followUser cfg.isDryRun cfg.followApi f
                    st.followedInSession).session,
                  currentFollowing := f :: st.currentFollowing,
                  trace := st.trace ++ [Ev.follow f] } :=
                DfsInv_extend_nonexpand st _ _ [Ev.follow f] rfl hinv
              have hs := ih.1 f
                { st with
                    followedInSession := (followUser cfg.isDryRun cfg.followApi f
                      st.followedInSession).session,
                    currentFollowing := f :: st.currentFollowing,
                    trace := st.trace ++ [Ev.follow f] }
                (depth + 1) (by omega) hinv1
              have hr := ihf
                (dfsStalk cfg f
                  { st with
                      followedInSession := (followUser cfg.isDryRun cfg.followApi f
                        st.followedInSession).session,
                      currentFollowing := f :: st.currentFollowing,
                      trace := st.trace ++ [Ev.follow f] }
                  (depth + 1)).1
                depth hd hk hs.1
              refine ⟨hr.1, ?_⟩
              intro v hv
              exact hr.2 v (hs.2 v hv)
            · rw [dfsFollowers_cons_fail cfg f rest st depth hd h1 h2 hok]
              have hinv1 : DfsInv { st with trace := st.trace ++ [Ev.followFail f] } :=
                DfsInv_extend_nonexpand st st.followedInSession st.currentFollowing
                  [Ev.followFail f] rfl hinv
              exact ihf { st with trace := st.trace ++ [Ev.followFail f] }
                depth hd hk hinv1
    constructor
    · intro username st depth hk hinv
      by_cases hbase : cfg.maxDepth ≤ depth
      · rw [dfsStalk_base cfg username st depth hbase]
        exact ⟨hinv, fun v hv => hv⟩
      · by_cases hvis : username ∈ st.processedUsers
        · rw [dfsStalk_visited cfg username st depth hbase hvis]
          exact ⟨hinv, fun v hv => hv⟩
        · rw [dfsStalk_expand cfg username st depth hbase hvis]
          have hinv1 := DfsInv_expand_step st username depth hvis hinv
          have hr := hF (cfg.fetch username)
            { st with processedUsers := username :: st.processedUsers,
                      trace := st.trace ++ [Ev.expand username depth] }
            depth (Nat.lt_of_not_le hbase) hk hinv1
          refine ⟨hr.1, ?_⟩
          intro v hv
          exact hr.2 v (List.mem_cons_of_mem _ hv)
    · exact hF

/-! ## Witness configurations -/

/-- Concrete BFS configuration for witnesses: dry-run, depth bound 1, the
root "r" has the single follower "a". -/
def bfsCfgW : BfsCfg where
  self := "me"
  isDryRun := true
  followApi := fun _ => Except.ok ()
  fetch := fun u => if u = "r" then ["a"] else []
  maxDepth := some 1

/-- Unbounded-depth variant of `bfsCfgW`, for the level-ordering witness. -/
def bfsCfgW2 : BfsCfg where
  self := "me"
  isDryRun := true
  followApi := fun _ => Except.ok ()
  fetch := fun u => if u = "r" then ["a"] else []
  maxDepth := none

/-- Two-account follower cycle ("a" and "b" follow each other), for the
cycle-safety witness. -/
def bfsCycleCfgW : BfsCfg where
  self := "me"
  isDryRun := false
  followApi := fun _ => Except.ok ()
  fetch := fun u => if u = "a" then ["b"] else if u = "b" then ["a"] else []
  maxDepth := none

/-- Seed-equals-authenticated-account configuration, for the C6
counterexample. -/
def selfSeedCfgW : BfsCfg where
  self := "me"
  isDryRun := true
  followApi := fun _ => Except.ok ()
  fetch := fun _ => []
  maxDepth := none

/-- Concrete DFS configuration for witnesses: live mode, always-succeeding
API, no followers anywhere, depth bound 2. -/
def dfsCfgW : DfsCfg where
  self := "me"
  isDryRun := false
  followApi := fun _ => Except.ok ()
  fetch := fun _ => []
  maxDepth := 2

/-- Depth certificate for the DFS witness configuration. -/
theorem dfsHdW : 0 < dfsCfgW.maxDepth := by decide

/-! ## Bound respect: C2 -/

/-- C2.  With a bounded depth `some m`, a completed BFS run started with
an empty trace only expands nodes (fetches their followers) at depths
strictly below `m` — in particular never at a depth greater than `m`;
and with a bounded per-node limit `n`, the paginated follower fetch
returns at most `n` entries whenever the API honours `per_page`. -/
theorem bfs_depth_bound_and_fetch_cap (cfg : BfsCfg) (m : Nat) (root : Acct)
    (fuel : Nat) (pro ses fol : List Acct) (st' : TravSt)
    (api : Nat → Nat → Except ApiErr (List Acct)) (n : Nat)
    (hm : cfg.maxDepth = some m)
    (hrun : bfsStalk cfg root fuel ⟨pro, ses, fol, []⟩ = some st')
    (hapi : ∀ pp p l, api pp p = .ok l → l.length ≤ pp) :
    (∀ u dd, Ev.expand u dd ∈ st'.trace → dd < m)
  ∧ (getUserFollowers api (some n)).length ≤ n := by
  constructor
  · intro u dd hmem
    rcases bfsLoop_expand_bound cfg m hm fuel _ _ st' hrun u dd hmem with hin | hlt
    · exact absurd hin (List.not_mem_nil _)
    · exact hlt
  · have h := getUserFollowersAux_length_le api hapi n 0 [] 1 n (by omega)
    simpa [getUserFollowers] using h

/-- Witness for `bfs_depth_bound_and_fetch_cap`: a concrete bounded run
(`bfsCfgW`, depth bound 1) and a concrete API. -/
theorem bfs_depth_bound_and_fetch_cap_witness :
    (∀ u dd, Ev.expand u dd ∈
        (TravSt.mk ["r"] [] ["a"]
          [Ev.dequeue "r" 0, Ev.expand "r" 0, Ev.follow "a"]).trace → dd < 1)
  ∧ (getUserFollowers (fun _ _ => Except.ok []) (some 2)).length ≤ 2 :=
  bfs_depth_bound_and_fetch_cap bfsCfgW 1 "r" 3 [] [] []
    ⟨["r"], [], ["a"], [Ev.dequeue "r" 0, Ev.expand "r" 0, Ev.follow "a"]⟩
    (fun _ _ => Except.ok []) 2 rfl (by rfl)
    (fun pp p l hl => by injection hl with h; rw [← h]; simp)

/-! ## BFS level ordering: C3 -/

/-- C3.  BFS level ordering: in a completed BFS run from the seeded root
queue, the sequence of dequeued depths is non-decreasing, hence whenever
one dequeue happens at a strictly smaller depth than another, it happens
strictly earlier in the trace. -/
theorem bfs_level_ordering (cfg : BfsCfg) (root : Acct) (fuel : Nat)
    (pro ses fol : List Acct) (st' : TravSt)
    (hrun : bfsStalk cfg root fuel ⟨pro, ses, fol, []⟩ = some st')
    (i j : Nat) (hi : i < (dequeueDepths st'.trace).length)
    (hj : j < (dequeueDepths st'.trace).length)
    (hij : (dequeueDepths st'.trace).get ⟨i, hi⟩
         < (dequeueDepths st'.trace).get ⟨j, hj⟩) :
    List.Pairwise (· ≤ ·) (dequeueDepths st'.trace) ∧ i < j := by
  have hq : qOk [⟨root, 0, none⟩] := by
    constructor
    · simp
    · intro a ha b hb
      simp only [List.mem_singleton] at ha hb
      subst ha
      subst hb
      omega
  obtain ⟨evs, hevs, hpair, -⟩ := bfsLoop_dequeue_mono cfg fuel _ _ st' hrun hq
  have htr : dequeueDepths st'.trace = dequeueDepths evs := by
    rw [hevs]
    show dequeueDepths ([] ++ evs) = dequeueDepths evs
    rw [List.nil_append]
  have hpair2 : List.Pairwise (· ≤ ·) (dequeueDepths st'.trace) := by
    rw [htr]
    exact hpair
  refine ⟨hpair2, ?_⟩
  by_contra hlt
  have hji : j ≤ i := Nat.le_of_not_lt hlt
  rcases Nat.lt_or_ge j i with hj2 | hj2
  · have := List.pairwise_iff_get.mp hpair2 ⟨j, hj⟩ ⟨i, hi⟩ hj2
    omega
  · have hije : i = j := by omega
    subst hije
    omega

/-- Witness for `bfs_level_ordering`: the two-level run of `bfsCfgW2`
dequeues depth 0 before depth 1. -/
theorem bfs_level_ordering_witness :
    List.Pairwise (· ≤ ·) (dequeueDepths
      (TravSt.mk ["a", "r"] [] ["a"]
        [Ev.dequeue "r" 0, Ev.expand "r" 0, Ev.follow "a", Ev.enqueue "a" 1,
         Ev.dequeue "a" 1, Ev.expand "a" 1]).trace) ∧ 0 < 1 :=
  bfs_level_ordering bfsCfgW2 "r" 3 [] [] []
    ⟨["a", "r"], [], ["a"],
      [Ev.dequeue "r" 0, Ev.expand "r" 0, Ev.follow "a", Ev.enqueue "a" 1,
       Ev.dequeue "a" 1, Ev.expand "a" 1]⟩
    (by rfl) 0 1 (by decide) (by decide) (by decide)

/-! ## Depth-first order: C4 -/

/-- C4.  Depth-first order: while expanding a node at depth `depth`, an
eligible follower `f` whose follow succeeds is immediately recursed into
at `depth + 1`, and the whole recursive result — state and counts — is
consumed before the remaining siblings are processed; when the follow
fails, `f` only contributes a failure event and a skip count, with no
recursion into `f`. -/
theorem dfs_recursion_order (cfg : DfsCfg) (f : Acct) (rest : List Acct)
    (st : TravSt) (depth : Nat) (hd : depth < cfg.maxDepth)
    (h1 : f ≠ cfg.self)
    (h2 : f ∉ st.currentFollowing) (h3 : f ∉ st.followedInSession) :
    ((followUser cfg.isDryRun cfg.followApi f st.followedInSession).ok = true →
      dfsFollowers cfg (f :: rest) st depth hd =
        ((dfsFollowers cfg rest
            (dfsStalk cfg f
              { st with
                  followedInSession :=
                    (followUser cfg.isDryRun cfg.followApi f st.followedInSession).session,
                  currentFollowing := f :: st.currentFollowing,
                  trace := st.trace ++ [Ev.follow f] }
              (depth + 1)).1 depth hd).1,
         1 + (dfsStalk cfg f
              { st with
                  followedInSession :=
                    (followUser cfg.isDryRun cfg.followApi f st.followedInSession).session,
                  currentFollowing := f :: st.currentFollowing,
                  trace := st.trace ++ [Ev.follow f] }
              (depth + 1)).2.1
           + (dfsFollowers cfg rest
              (dfsStalk cfg f
                { st with
                    followedInSession :=
                      (followUser cfg.isDryRun cfg.followApi f st.followedInSession).session,
                    currentFollowing := f :: st.currentFollowing,
                    trace := st.trace ++ [Ev.follow f] }
                (depth + 1)).1 depth hd).2.1,
         (dfsStalk cfg f
              { st with
                  followedInSession :=
                    (followUser cfg.isDryRun cfg.followApi f st.followedInSession).session,
                  currentFollowing := f :: st.currentFollowing,
                  trace := st.trace ++ [Ev.follow f] }
              (depth + 1)).2.2
           + (dfsFollowers cfg rest
              (dfsStalk cfg f
                { st with
                    followedInSession :=
                      (followUser cfg.isDryRun cfg.followApi f st.followedInSession).session,
                    currentFollowing := f :: st.currentFollowing,
                    trace := st.trace ++ [Ev.follow f] }
                (depth + 1)).1 depth hd).2.2))
  ∧ ((followUser cfg.isDryRun cfg.followApi f st.followedInSession).ok = false →
      dfsFollowers cfg (f :: rest) st depth hd =
        ((dfsFollowers cfg rest
            { st with trace := st.trace ++ [Ev.followFail f] } depth hd).1,
         (dfsFollowers cfg rest
            { st with trace := st.trace ++ [Ev.followFail f] } depth hd).2.1,
         (dfsFollowers cfg rest
            { st with trace := st.trace ++ [Ev.followFail f] } depth hd).2.2 + 1)) := by
  have h2' : ¬ (f ∈ st.currentFollowing ∨ f ∈ st.followedInSession) := by
    intro hmem
    rcases hmem with hmem | hmem
    · exact h2 hmem
    · exact h3 hmem
  constructor
  · intro hok
    exact dfsFollowers_cons_ok cfg f rest st depth hd h1 h2' hok
  · intro hfail
    exact dfsFollowers_cons_fail cfg f rest st depth hd h1 h2' (by simp [hfail])

/-- Witness for `dfs_recursion_order`: the successful-follow branch at a
concrete input. -/
theorem dfs_recursion_order_witness :
    dfsFollowers dfsCfgW ["b", "c"] ⟨[], [], [], []⟩ 0 dfsHdW =
      ((dfsFollowers dfsCfgW ["c"]
          (dfsStalk dfsCfgW "b" ⟨[], ["b"], ["b"], [Ev.follow "b"]⟩ 1).1 0 dfsHdW).1,
       1 + (dfsStalk dfsCfgW "b" ⟨[], ["b"], ["b"], [Ev.follow "b"]⟩ 1).2.1
         + (dfsFollowers dfsCfgW ["c"]
            (dfsStalk dfsCfgW "b" ⟨[], ["b"], ["b"], [Ev.follow "b"]⟩ 1).1 0 dfsHdW).2.1,
       (dfsStalk dfsCfgW "b" ⟨[], ["b"], ["b"], [Ev.follow "b"]⟩ 1).2.2
         + (dfsFollowers dfsCfgW ["c"]
            (dfsStalk dfsCfgW "b" ⟨[], ["b"], ["b"], [Ev.follow "b"]⟩ 1).1 0 dfsHdW).2.2) :=
  (dfs_recursion_order dfsCfgW "b" ["c"] ⟨[], [], [], []⟩ 0 dfsHdW
    (by decide) (List.not_mem_nil _) (List.not_mem_nil _)).1 rfl

/-! ## Termination and cycle safety: C5 -/

/-- C5.  In a finite follower graph (every fetched follower lies in
`univ`; cycles allowed), the BFS traversal completes once the fuel
exceeds the measure, its visited set stays duplicate-free and no
username is ever expanded twice; the DFS traversal — a total function by
well-founded recursion on the depth budget — likewise keeps the visited
set duplicate-free and expands each username at most once. -/
theorem traversal_terminates_visits_once (cfg : BfsCfg) (univ : List Acct)
    (root : Acct) (ses fol : List Acct) (fuel : Nat)
    (hU : ∀ v, ∀ x ∈ cfg.fetch v, x ∈ univ)
    (hfuel : countMissing univ fol + 1 < fuel) :
    (∃ st', bfsStalk cfg root fuel ⟨[], ses, fol, []⟩ = some st'
      ∧ st'.processedUsers.Nodup
      ∧ (expandedUsers st'.trace).Nodup)
  ∧ (∀ (dcfg : DfsCfg) (d : Nat),
      (dfsStalk dcfg root ⟨[], ses, fol, []⟩ d).1.processedUsers.Nodup
      ∧ (expandedUsers (dfsStalk dcfg root ⟨[], ses, fol, []⟩ d).1.trace).Nodup) := by
  constructor
  · obtain ⟨st', hst'⟩ := bfsLoop_complete cfg univ hU fuel [⟨root, 0, none⟩]
      ⟨[], ses, fol, []⟩
      (by
        show countMissing univ fol + [(⟨root, 0, none⟩ : BfsNode)].length < fuel
        simpa using hfuel)
    obtain ⟨c1, -, c3⟩ := bfsLoop_visited_once cfg fuel _ _ st' hst'
      List.nodup_nil (fun v hv => absurd hv (List.not_mem_nil v)) List.nodup_nil
    exact ⟨st', hst', c1, c3⟩
  · intro dcfg d
    obtain ⟨hs, -⟩ := dfs_inv_measure dcfg (dcfg.maxDepth - d)
    have h := hs root ⟨[], ses, fol, []⟩ d (Nat.le_refl _)
      ⟨List.nodup_nil, fun v hv => absurd hv (List.not_mem_nil v), List.nodup_nil⟩
    exact ⟨h.1.1, h.1.2.2⟩

/-- Witness for `traversal_terminates_visits_once`: the two-account
follower cycle "a" ↔ "b". -/
theorem traversal_terminates_visits_once_witness :
    (∃ st', bfsStalk bfsCycleCfgW "a" 4 ⟨[], [], [], []⟩ = some st'
      ∧ st'.processedUsers.Nodup
      ∧ (expandedUsers st'.trace).Nodup)
  ∧ (∀ (dcfg : DfsCfg) (d : Nat),
      (dfsStalk dcfg "a" ⟨[], [], [], []⟩ d).1.processedUsers.Nodup
      ∧ (expandedUsers (dfsStalk dcfg "a" ⟨[], [], [], []⟩ d).1.trace).Nodup) :=
  traversal_terminates_visits_once bfsCycleCfgW ["a", "b"] "a" [] [] 4
    (by
      intro v x hx
      simp only [bfsCycleCfgW] at hx
      by_cases ha : v = "a"
      · simp [ha] at hx
        simp [hx]
      · by_cases hb : v = "b"
        · simp [ha, hb] at hx
          simp [hx]
        · simp [ha, hb] at hx)
    (by decide)

/-! ## The authenticated account as traversal target: C6 -/

/-- C6 counterexample.  When the seed equals the authenticated account,
the BFS has no self-check on the dequeued seed: the run visits "me",
adding it to the Visited Set and expanding it. -/
theorem bfs_seed_self_visited_cex :
    bfsStalk selfSeedCfgW "me" 2 ⟨[], [], [], []⟩ =
      some ⟨["me"], [], [], [Ev.dequeue "me" 0, Ev.expand "me" 0]⟩
    ∧ "me" ∈ (TravSt.mk ["me"] [] [] [Ev.dequeue "me" 0, Ev.expand "me" 0]).processedUsers
    ∧ selfSeedCfgW.self = "me" :=
  ⟨rfl, List.mem_cons_self _ _, rfl⟩

/-- C6 amended.  Provided the seed differs from the authenticated account
and the authenticated account was not already in the Visited Set, a
completed BFS run never adds the authenticated account to the Visited Set
and never dequeues, expands or enqueues it — fetched followers equal to
the authenticated account are always skipped. -/
theorem bfs_self_never_visited (cfg : BfsCfg) (root : Acct) (fuel : Nat)
    (st0 st' : TravSt)
    (hroot : root ≠ cfg.self)
    (hinit : cfg.self ∉ st0.processedUsers)
    (hrun : bfsStalk cfg root fuel st0 = some st') :
    cfg.self ∉ st'.processedUsers
    ∧ (∀ dd, Ev.dequeue cfg.self dd ∈ st'.trace → Ev.dequeue cfg.self dd ∈ st0.trace)
    ∧ (∀ dd, Ev.expand cfg.self dd ∈ st'.trace → Ev.expand cfg.self dd ∈ st0.trace)
    ∧ (∀ dd, Ev.enqueue cfg.self dd ∈ st'.trace → Ev.enqueue cfg.self dd ∈ st0.trace) :=
  bfsLoop_self_safe cfg fuel _ st0 st' hrun hinit
    (by
      intro n hn
      rw [List.mem_singleton] at hn
      subst hn
      exact hroot)

/-- Witness for `bfs_self_never_visited`: the `bfsCfgW` run from seed "r". -/
theorem bfs_self_never_visited_witness :
    bfsCfgW.self ∉ (TravSt.mk ["r"] [] ["a"]
      [Ev.dequeue "r" 0, Ev.expand "r" 0, Ev.follow "a"]).processedUsers
    ∧ (∀ dd, Ev.dequeue bfsCfgW.self dd ∈ (TravSt.mk ["r"] [] ["a"]
        [Ev.dequeue "r" 0, Ev.expand "r" 0, Ev.follow "a"]).trace →
        Ev.dequeue bfsCfgW.self dd ∈ (TravSt.mk [] [] [] ([] : List Ev)).trace)
    ∧ (∀ dd, Ev.expand bfsCfgW.self dd ∈ (TravSt.mk ["r"] [] ["a"]
        [Ev.dequeue "r" 0, Ev.expand "r" 0, Ev.follow "a"]).trace →
        Ev.expand bfsCfgW.self dd ∈ (TravSt.mk [] [] [] ([] : List Ev)).trace)
    ∧ (∀ dd, Ev.enqueue bfsCfgW.self dd ∈ (TravSt.mk ["r"] [] ["a"]
        [Ev.dequeue "r" 0, Ev.expand "r" 0, Ev.follow "a"]).trace →
        Ev.enqueue bfsCfgW.self dd ∈ (TravSt.mk [] [] [] ([] : List Ev)).trace) :=
  bfs_self_never_visited bfsCfgW "r" 3 ⟨[], [], [], []⟩
    ⟨["r"], [], ["a"], [Ev.dequeue "r" 0, Ev.expand "r" 0, Ev.follow "a"]⟩
    (by decide) (List.not_mem_nil _) (by rfl)

/-! ## Dry-run frame: C10 -/

/-- C10.  Dry-run frame: a completed dry-run BFS leaves the
Session-Followed Set exactly as it started (so a dry run beginning with
an empty session keeps it empty throughout); a dry-run follow reports
success before any statement that records the account runs, touching
neither the network nor the session set; only a live successful follow
records the account; and a dry-run "success" still mutates the in-memory
following set — the only machinery left to suppress duplicate follows in
a dry run. -/
theorem dryrun_session_frame (cfg : BfsCfg) (fuel : Nat) (q : List BfsNode)
    (st : TravSt) (d : Nat) (par : Acct) :
    (∀ st', cfg.isDryRun = true → bfsLoop cfg fuel q st = some st' →
      st'.followedInSession = st.followedInSession)
  ∧ (∀ (api : Acct → Except ApiErr Unit) (u : Acct) (s : List Acct),
      (followUser true api u s).session = s
      ∧ (followUser true api u s).ok = true
      ∧ (followUser true api u s).netCalls = [])
  ∧ (∀ (api : Acct → Except ApiErr Unit) (u : Acct) (s : List Acct),
      api u = .ok () → (followUser false api u s).session = u :: s)
  ∧ (∀ f rest, cfg.isDryRun = true → f ≠ cfg.self →
      f ∉ st.currentFollowing → f ∉ st.followedInSession → f ∉ st.processedUsers →
      f ∈ (bfsFollowers cfg d par (f :: rest) st q).1.currentFollowing) := by
  refine ⟨?_, ?_, ?_, ?_⟩
  · intro st' hdry hrun
    exact bfsLoop_dry_session cfg hdry fuel q st st' hrun
  · intro api u s
    exact ⟨rfl, rfl, rfl⟩
  · intro api u s hok
    simp [followUser, hok]
  · intro f rest hdry hs hf hse hp
    have hok : (followUser cfg.isDryRun cfg.followApi f st.followedInSession).ok = true := by
      rw [hdry]
      rfl
    have h2 : ¬ (f ∈ st.currentFollowing ∨ f ∈ st.followedInSession) := by
      intro hmem
      rcases hmem with hmem | hmem
      · exact hf hmem
      · exact hse hmem
    rw [bfsFollowers_cons, if_neg hs, if_neg h2, if_neg hp, if_pos hok]
    by_cases hw : withinDepth cfg.maxDepth (d + 1) = true
    · rw [if_pos hw]
      obtain ⟨-, -, -, -, p5, -⟩ := bfsFollowers_props cfg d par [] rest
        { st with
            followedInSession :=
              (followUser cfg.isDryRun cfg.followApi f st.followedInSession).session,
            currentFollowing := f :: st.currentFollowing,
            trace := st.trace ++ [Ev.follow f] ++ [Ev.enqueue f (d + 1)] }
        (q ++ [⟨f, d + 1, some par⟩])
      exact p5 f (List.mem_cons_self _ _)
    · rw [if_neg hw]
      obtain ⟨-, -, -, -, p5, -⟩ := bfsFollowers_props cfg d par [] rest
        { st with
            followedInSession :=
              (followUser cfg.isDryRun cfg.followApi f st.followedInSession).session,
            currentFollowing := f :: st.currentFollowing,
            trace := st.trace ++ [Ev.follow f] }
        q
      exact p5 f (List.mem_cons_self _ _)

end Stalk